import Mathlib

set_option autoImplicit false

namespace SapAreas

/-!
Shallow embedding of the floor-area detection pipeline of
`src/sap2000_model/area_methods.py` (class `AreaMethods`), together with the
beam selector contract of `frame_methods.py`.  Python floats are modelled as
exact rationals, Python dicts (insertion ordered) as association lists, and
the SAP2000 host as an explicit oracle record.  The float function
`math.atan2` enters only through the order it induces on direction vectors
(realized exactly by `angleLtB`) and through an abstract degree-valued
parameter `at2` in the area emitter.
-/

/-- A 3-D coordinate triple (x, y, z). -/
abbrev Coord := ℚ × ℚ × ℚ

/-- A horizontal beam as returned by `_get_horizontal_beams_at_elevation`:
its frame name and the coordinates of its two end points. -/
structure Beam where
  name : String
  coords_i : Coord
  coords_j : Coord
deriving DecidableEq

/-- Exact rational addition, spelled through `Rat.divInt` (Batteries marks
`Rat.add` irreducible, which blocks kernel evaluation); `qadd_eq` proves it
equal to `a + b`. -/
def qadd (a b : ℚ) : ℚ := Rat.divInt (a.num * b.den + b.num * a.den) (a.den * b.den)

/-- Exact rational subtraction; `qsub_eq` proves it equal to `a - b`. -/
def qsub (a b : ℚ) : ℚ := Rat.divInt (a.num * b.den - b.num * a.den) (a.den * b.den)

/-- Exact rational multiplication; `qmul_eq` proves it equal to `a * b`. -/
def qmul (a b : ℚ) : ℚ := Rat.divInt (a.num * b.num) (a.den * b.den)

/-- Exact rational division; `qdiv_eq` proves it equal to `a / b`. -/
def qdiv (a b : ℚ) : ℚ := Rat.divInt (a.num * b.den) (a.den * b.num)

/-- The integer `z` as a rational; `qofInt_eq` proves it equal to the cast. -/
def qofInt (z : ℤ) : ℚ := Rat.divInt z 1

/-- Python's builtin `round` on rationals: nearest integer, halves to even. -/
def pyRound (q : ℚ) : ℤ :=
  let f : ℤ := q.floor
  let r : ℚ := qsub q (qofInt f)
  if r < Rat.divInt 1 2 then f
  else if Rat.divInt 1 2 < r then f + 1
  else if f % 2 = 0 then f else f + 1

/-- Endpoint quantization of `_build_graph`:
`tuple(round(v / tolerance) * tolerance for v in coords)`. -/
def quantKey (t : ℚ) (c : Coord) : Coord :=
  (qmul (qofInt (pyRound (qdiv c.1 t))) t,
   qmul (qofInt (pyRound (qdiv c.2.1 t))) t,
   qmul (qofInt (pyRound (qdiv c.2.2 t))) t)

/-- First value bound to key `k` in an insertion-ordered association list
(Python dict lookup; `none` models a `KeyError`). -/
def alookup {α β : Type} [DecidableEq α] (l : List (α × β)) (k : α) : Option β :=
  (l.find? (fun p => decide (p.1 = k))).map (·.2)

/-- `adjacency_list[v].append(e)`: appends `e` to the list bound to the first
occurrence of key `v` (keys are unique in graphs built by `_build_graph`). -/
def adjPush {β : Type} (l : List (ℕ × List β)) (v : ℕ) (e : β) : List (ℕ × List β) :=
  match l with
  | [] => []
  | (k, es) :: rest => if k = v then (k, es ++ [e]) :: rest else (k, es) :: adjPush rest v e

/-- State of `_build_graph`: `vertex_map` maps quantized coordinates to vertex
indices and `adj` maps vertex indices to `(neighbor, beam_id)` lists, both
insertion-ordered like the Python dicts. -/
structure Graph where
  vertexMap : List (Coord × ℕ)
  adj : List (ℕ × List (ℕ × String))
  count : ℕ
deriving DecidableEq

/-- The `if key not in vertex_map` block of `_build_graph`: assign the next
index to an unseen key and give it an empty adjacency list. -/
def insertKey (g : Graph) (k : Coord) : Graph :=
  if (alookup g.vertexMap k).isNone then
    { vertexMap := g.vertexMap ++ [(k, g.count)]
      adj := g.adj ++ [(g.count, [])]
      count := g.count + 1 }
  else g

/-- One iteration of the `for beam in beam_list` loop of `_build_graph`:
both endpoint keys are interned, then the edge is inserted in both
directions, tagged with the beam id. -/
def buildStep (t : ℚ) (g : Graph) (b : Beam) : Graph :=
  let g2 := insertKey (insertKey g (quantKey t b.coords_i)) (quantKey t b.coords_j)
  let v1 := (alookup g2.vertexMap (quantKey t b.coords_i)).getD 0
  let v2 := (alookup g2.vertexMap (quantKey t b.coords_j)).getD 0
  { g2 with adj := adjPush (adjPush g2.adj v1 (v2, b.name)) v2 (v1, b.name) }

/-- `_build_graph(beam_list, tolerance)`. -/
def buildGraph (beams : List Beam) (t : ℚ) : Graph :=
  beams.foldl (buildStep t) ⟨[], [], 0⟩

/-- The inversion `vertex_coords = {v: coords for coords, v in vertex_map.items()}`
used for lookups (vertex indices are unique in built graphs). -/
def vertexCoords (vm : List (Coord × ℕ)) (v : ℕ) : Coord :=
  ((vm.find? (fun p => decide (p.2 = v))).map (·.1)).getD (0, 0, 0)

/-- Classification of a direction vector `(dx, dy)` by the range of
`atan2(dy, dx)`: class 0 for angles in (-pi, 0), class 1 for angle 0
(including the zero vector, since `atan2 0 0 = 0`), class 2 for (0, pi),
class 3 for angle pi. -/
def angleClass (dx dy : ℚ) : ℕ :=
  if dy < 0 then 0
  else if dy = 0 then (if dx < 0 then 3 else 1)
  else 2

/-- Decides `atan2(a.2, a.1) < atan2(b.2, b.1)` exactly: distinct classes
compare by class; inside an open half-plane (class 0 or 2) the two angles
differ by less than pi, so their order is the sign of the cross product. -/
def angleLtB (a b : ℚ × ℚ) : Bool :=
  let ca := angleClass a.1 a.2
  let cb := angleClass b.1 b.2
  if ca = cb then
    decide ((ca = 0 ∨ ca = 2) ∧ 0 < qsub (qmul a.1 b.2) (qmul a.2 b.1))
  else decide (ca < cb)

/-- A sorted-neighbor entry `(neighbor_index, beam_id, angle)`; the direction
vector stands in for the float angle value. -/
abbrev NEntry := ℕ × String × (ℚ × ℚ)

/-- Stable insertion placing `x` before the first strictly greater element:
folded over the list this reproduces Python's stable ascending sort. -/
def insertByAngle (x : NEntry) : List NEntry → List NEntry
  | [] => [x]
  | y :: ys => if angleLtB x.2.2 y.2.2 then x :: y :: ys else y :: insertByAngle x ys

/-- Stable ascending sort by angle (`angle_list.sort(key=lambda x: x[2])`). -/
def sortByAngle (l : List NEntry) : List NEntry :=
  l.foldl (fun acc x => insertByAngle x acc) []

/-- The sorted-neighbor structure: vertex index to angularly sorted entries. -/
abbrev SNbrs := List (ℕ × List NEntry)

/-- `_compute_angles_around_vertices(vertex_map, adjacency_list)`. -/
def computeAngles (g : Graph) : SNbrs :=
  g.adj.map (fun p =>
    let vc := vertexCoords g.vertexMap p.1
    (p.1, sortByAngle (p.2.map (fun n =>
      let nc := vertexCoords g.vertexMap n.1
      (n.1, n.2, (qsub nc.1 vc.1, qsub nc.2.1 vc.2.1))))))

/-- How one call of `_trace_face` ended: face closed, back-edge not found,
iteration cap reached, or a `KeyError` on `sorted_neighbors[current_v]`. -/
inductive Outcome where
  | complete
  | noBack
  | cap
  | keyErr
deriving DecidableEq

/-- Result of one `_trace_face` call: the face list it built, the visited set
after the call, the half-edges this trace marked (in order, with
multiplicity), the number of loop iterations, and the outcome. -/
structure TraceRes where
  face : List ℕ
  visited : List (ℕ × ℕ)
  marked : List (ℕ × ℕ)
  iters : ℕ
  outcome : Outcome
deriving DecidableEq

/-- The back-edge search of `_trace_face`: the index of the first entry of
the neighbor list whose vertex equals the previous vertex (`for i, (neighbor,
_, _) in enumerate(neighbors): if neighbor == face_vertices[-2]: break`);
`none` models `back_index == -1`. -/
def findBackIdx (prev : ℕ) : List NEntry → Option ℕ
  | [] => none
  | e :: rest => if e.1 = prev then some 0 else (findBackIdx prev rest).map (· + 1)

/-- `visited_half_edges.add(e)`: the set keeps one copy of each pair. -/
def visitAdd (vs : List (ℕ × ℕ)) (e : ℕ × ℕ) : List (ℕ × ℕ) :=
  if e ∈ vs then vs else vs ++ [e]

/-- The `while iterations < max_iterations` loop of `_trace_face`; `fuel` is
the number of iterations still allowed (1000 at entry).  The code returns
`[]` for the `noBack` and `cap` outcomes; `keyErr` raises in Python. -/
def traceGo (sn : SNbrs) (startV : ℕ) :
    ℕ → ℕ → ℕ → List ℕ → List (ℕ × ℕ) → List (ℕ × ℕ) → ℕ → TraceRes
  | 0, _, _, _, vis, mk, it => ⟨[], vis, mk, it, .cap⟩
  | fuel + 1, cur, nvc, face, vis, mk, it =>
    let vis' := visitAdd vis (cur, nvc)
    let mk' := mk ++ [(cur, nvc)]
    let prev := cur
    let cur' := nvc
    let face' := face ++ [cur']
    match alookup sn cur' with
    | none => ⟨[], vis', mk', it + 1, .keyErr⟩
    | some nbrs =>
      match findBackIdx prev nbrs with
      | none => ⟨[], vis', mk', it + 1, .noBack⟩
      | some back =>
        let nidx := (back + 1) % nbrs.length
        let nvc' := ((nbrs[nidx]?).map (·.1)).getD 0
        if nvc' = startV then ⟨face', vis', mk', it + 1, .complete⟩
        else traceGo sn startV fuel cur' nvc' face' vis' mk' (it + 1)

/-- `_trace_face(start_v, next_v, sorted_neighbors, visited_half_edges)`. -/
def traceFace (sn : SNbrs) (v w : ℕ) (vis : List (ℕ × ℕ)) : TraceRes :=
  traceGo sn v 1000 v w [v] vis [] 0

/-- The list value the Python function returns (`[]` on aborts). -/
def pyRet (r : TraceRes) : List ℕ :=
  if r.outcome = .complete then r.face else []

/-- State of the scan loop of `_find_all_faces`. -/
structure FindState where
  visited : List (ℕ × ℕ)
  allFaces : List (List ℕ)
  traces : List TraceRes
  exn : Bool
deriving DecidableEq

/-- Start half-edges in scan order: `for v in sorted_neighbors.keys(): for
neighbor_data in sorted_neighbors[v]: ...`. -/
def startPairs (sn : SNbrs) : List (ℕ × ℕ) :=
  sn.flatMap (fun p => p.2.map (fun e => (p.1, e.1)))

/-- The scan loop of `_find_all_faces`: every half-edge not yet in the
visited set starts a trace; completed faces with at least 3 vertices are
collected; a `KeyError` inside a trace aborts the whole scan (`exn`). -/
def runTraces (sn : SNbrs) : List (ℕ × ℕ) → FindState → FindState
  | [], s => s
  | (v, w) :: rest, s =>
    if (v, w) ∈ s.visited then runTraces sn rest s
    else
      let r := traceFace sn v w s.visited
      if r.outcome = .keyErr then
        { s with visited := r.visited, traces := s.traces ++ [r], exn := true }
      else
        runTraces sn rest
          { visited := r.visited
            allFaces := s.allFaces ++ (if 3 ≤ (pyRet r).length then [r.face] else [])
            traces := s.traces ++ [r]
            exn := s.exn }

/-- The duplicate and quadrilateral filter at the end of `_find_all_faces`:
a face whose vertex set was already seen is dropped; among the rest exactly
the length-4 loops are kept. -/
def uniqueFilter : List (List ℕ) → List (Finset ℕ) → List (List ℕ)
  | [], _ => []
  | f :: rest, seen =>
    if f.toFinset ∈ seen then uniqueFilter rest seen
    else (if f.length = 4 then [f] else []) ++ uniqueFilter rest (seen ++ [f.toFinset])

/-- Result of `_find_all_faces`. -/
structure FindRes where
  allFaces : List (List ℕ)
  uniqueFaces : List (List ℕ)
  visited : List (ℕ × ℕ)
  traces : List TraceRes
  exn : Bool

/-- `_find_all_faces(vertex_map, sorted_neighbors)`. -/
def findAllFaces (sn : SNbrs) : FindRes :=
  let s := runTraces sn (startPairs sn) ⟨[], [], [], false⟩
  ⟨s.allFaces, uniqueFilter s.allFaces [], s.visited, s.traces, s.exn⟩

/-- One created area: its position in `created_areas`, its name, and its
coordinate arrays. -/
structure AreaRec where
  pos : ℕ
  name : String
  xs : List ℚ
  ys : List ℚ
deriving DecidableEq

/-- Python `min` of a nonempty list (0 on the empty list, unreached). -/
def listMin : List ℚ → ℚ
  | [] => 0
  | x :: xs => xs.foldl (fun acc y => if y < acc then y else acc) x

/-- Python `max` of a nonempty list (0 on the empty list, unreached). -/
def listMax : List ℚ → ℚ
  | [] => 0
  | x :: xs => xs.foldl (fun acc y => if acc < y then y else acc) x

/-- The bounding-box local-axis angle chosen in `_create_areas_without_loads`:
90 when the X span is strictly shorter than the Y span, else 0. -/
def bbAngle (xs ys : List ℚ) : ℚ :=
  if qsub (listMax xs) (listMin xs) < qsub (listMax ys) (listMin ys) then 90 else 0

/-- Default area name `f"Area_{i+1}"` used when `AddByCoord` returns none. -/
def defaultName (i : ℕ) : String := "Area_" ++ toString (i + 1)

/-- The creation loop of `_create_areas_without_loads`: `i` is the enumerate
index, `pos` the position in `created_areas` (also the `AddByCoord` call
number, by which the host oracle `nameOf` is keyed).  Besides the records it
emits one bounding-box `SetLocalAxes` event `(pos, angle)` per created area. -/
def createAreasGo (vc : ℕ → Coord) (nameOf : ℕ → Option String) :
    List (List ℕ) → ℕ → ℕ → List AreaRec × List (ℕ × ℚ)
  | [], _, _ => ([], [])
  | f :: rest, i, pos =>
    let xs := f.map (fun v => (vc v).1)
    let ys := f.map (fun v => (vc v).2.1)
    if xs.length < 3 then createAreasGo vc nameOf rest (i + 1) pos
    else
      let nm := (nameOf pos).getD (defaultName i)
      let r := createAreasGo vc nameOf rest (i + 1) (pos + 1)
      (⟨pos, nm, xs, ys⟩ :: r.1, (pos, bbAngle xs ys) :: r.2)

/-- `_create_areas_without_loads(faces, vertex_map, floor_z)`. -/
def createAreas (vc : ℕ → Coord) (nameOf : ℕ → Option String)
    (faces : List (List ℕ)) : List AreaRec × List (ℕ × ℚ) :=
  createAreasGo vc nameOf faces 0 0

/-- The shortest-edge scan of the local-axis pass in `add_floor_areas`.
Squared lengths replace `sqrt` (the strict order is the same); `at2 dy dx`
models `math.degrees(math.atan2(dy, dx))`; `none` models the initial
`float('inf')`.  Returns `best_angle` (initially 0). -/
def shortestAngleGo (at2 : ℚ → ℚ → ℚ) (pts : List (ℚ × ℚ)) :
    List ℕ → Option ℚ → ℚ → ℚ
  | [], _, best => best
  | j :: rest, minLen2, best =>
    let p1 := (pts[j]?).getD (0, 0)
    let p2 := (pts[(j + 1) % pts.length]?).getD (0, 0)
    let dx := qsub p2.1 p1.1
    let dy := qsub p2.2 p1.2
    let len2 := qadd (qmul dx dx) (qmul dy dy)
    if (match minLen2 with | none => true | some m => decide (len2 < m)) then
      shortestAngleGo at2 pts rest (some len2) (at2 dy dx)
    else
      shortestAngleGo at2 pts rest minLen2 best

/-- The angle of the shortest edge of the point loop `pts`. -/
def shortestAngle (at2 : ℚ → ℚ → ℚ) (pts : List (ℚ × ℚ)) : ℚ :=
  shortestAngleGo at2 pts (List.range pts.length) none 0

/-- Python modulo on rationals; for `0 < m` the result lies in `[0, m)`. -/
def pyMod (a m : ℚ) : ℚ := qsub a (qmul m (qofInt (qdiv a m).floor))

/-- The per-area local-axis correction loop at the end of `add_floor_areas`:
for each created area (in order) whose points can be retrieved
(`GetPoints` succeeded, `ret[0] > 0`), set the local axis to the
shortest-edge angle normalized by `% 360`. -/
def secondPass (at2 : ℚ → ℚ → ℚ) (getPts : ℕ → Bool) :
    List AreaRec → List (ℕ × ℚ)
  | [] => []
  | r :: rest =>
    (if getPts r.pos then
      [(r.pos, pyMod (shortestAngle at2 (r.xs.zip r.ys)) 360)]
    else []) ++ secondPass at2 getPts rest

/-- All `SetLocalAxes` calls issued by one `add_floor_areas` invocation for
the face list `faces`, in order, keyed by position in `created_areas`. -/
def axisEvents (at2 : ℚ → ℚ → ℚ) (vc : ℕ → Coord) (nameOf : ℕ → Option String)
    (getPts : ℕ → Bool) (faces : List (List ℕ)) : List (ℕ × ℚ) :=
  let r := createAreas vc nameOf faces
  r.2 ++ secondPass at2 getPts r.1

/-- The angles assigned to the area at position `j`, in call order. -/
def eventsFor (evs : List (ℕ × ℚ)) (j : ℕ) : List ℚ :=
  (evs.filter (fun e => decide (e.1 = j))).map (·.2)

/-- The SAP2000 host oracle: the outcome of beam retrieval (`error` models an
exception raised inside it), whether the i-th `AddByCoord` call raises, the
name it returns (`none`: no name, use the default), and whether `GetPoints`
succeeds for the area at a given position. -/
structure Host where
  beams : Except Unit (List Beam)
  addExn : ℕ → Bool
  nameOf : ℕ → Option String
  getPts : ℕ → Bool

/-- The `try` body of `add_floor_areas`; `Except.error` models an exception
escaping to the handler (`floor_z` only flows into the emitted coordinates,
`at2` and `getPts` only into the local-axis calls, neither into the return
value). -/
def addFloorAreasBody (h : Host) (at2 : ℚ → ℚ → ℚ) (floor_z t : ℚ) :
    Except Unit (List String × ℕ) :=
  match h.beams with
  | .error e => .error e
  | .ok beams =>
    if beams.isEmpty then .ok ([], 0)
    else
      let g := buildGraph beams t
      let fr := findAllFaces (computeAngles g)
      if fr.exn then .error ()
      else if fr.uniqueFaces.isEmpty then .ok ([], 0)
      else
        let recs := (createAreas (vertexCoords g.vertexMap) h.nameOf fr.uniqueFaces).1
        if (List.range recs.length).any h.addExn then .error ()
        else .ok (recs.map (·.name), 0)

/-- `add_floor_areas(floor_z, tolerance)`: the catch-all `except` turns any
escaped exception into the return value `([], 1)`. -/
def addFloorAreas (h : Host) (at2 : ℚ → ℚ → ℚ) (floor_z t : ℚ) :
    List String × ℕ :=
  match addFloorAreasBody h at2 floor_z t with
  | .ok r => r
  | .error _ => ([], 1)

/-- True exactly when the `try` body raised. -/
def bodyRaised (h : Host) (at2 : ℚ → ℚ → ℚ) (floor_z t : ℚ) : Bool :=
  match addFloorAreasBody h at2 floor_z t with
  | .ok _ => false
  | .error _ => true

/-- Test oracle for `math.degrees(math.atan2(dy, dx))`: exact on the four
axis directions (the only directions the concrete scenarios below evaluate),
0 elsewhere. -/
def at2ex (dy dx : ℚ) : ℚ :=
  if dy = 0 then (if dx < 0 then 180 else 0)
  else if dx = 0 then (if 0 < dy then 90 else -90)
  else 0

/-- The tolerance 0.01 used by the scenarios. -/
def tol : ℚ := Rat.divInt 1 100

/-- Scenario A input: four connectors forming the closed square
(0,0)-(10,0)-(10,10)-(0,10) at elevation z = 10. -/
def squareBeams : List Beam :=
  [⟨"B1", (0, 0, 10), (10, 0, 10)⟩,
   ⟨"B2", (10, 0, 10), (10, 10, 10)⟩,
   ⟨"B3", (10, 10, 10), (0, 10, 10)⟩,
   ⟨"B4", (0, 10, 10), (0, 0, 10)⟩]

/-- The sorted-neighbor structure of the square input. -/
def squareSN : SNbrs := computeAngles (buildGraph squareBeams tol)

/-- Two collinear connectors forming a dangling open chain
(0,0)-(1,0)-(2,0) at z = 10: no closed loop exists. -/
def chainBeams : List Beam :=
  [⟨"B1", (0, 0, 10), (1, 0, 10)⟩, ⟨"B2", (1, 0, 10), (2, 0, 10)⟩]

/-- A bent dangling chain (0,0)-(1,0)-(1,1) at z = 10: an open polyline. -/
def bentBeams : List Beam :=
  [⟨"B1", (0, 0, 10), (1, 0, 10)⟩, ⟨"B2", (1, 0, 10), (1, 1, 10)⟩]

/-- A single dangling connector. -/
def oneBeam : List Beam := [⟨"B1", (0, 0, 10), (1, 0, 10)⟩]

/-- Two connectors whose shared endpoint coordinates differ by 0.002
(less than the tolerance 0.01 but more than zero) while straddling a
quantization boundary: 1.004 rounds to the grid point 1.00 and 1.006 to
1.01. -/
def straddleBeams : List Beam :=
  [⟨"B1", (0, 0, 0), (Rat.divInt 251 250, 0, 0)⟩,
   ⟨"B2", (Rat.divInt 503 500, 0, 0), (2, 0, 0)⟩]

/-- A host that retrieves the given beams and answers every call benignly. -/
def hostOf (bs : List Beam) : Host :=
  ⟨.ok bs, fun _ => false, fun _ => none, fun _ => true⟩

/-- A host whose beam retrieval raises. -/
def hostFail : Host :=
  ⟨.error (), fun _ => false, fun _ => none, fun _ => true⟩

/-- A host for which `GetPoints` never succeeds. -/
def hostNoPts (bs : List Beam) : Host :=
  ⟨.ok bs, fun _ => false, fun _ => none, fun _ => false⟩

/-- Whether `e` is a half-edge of `sn`: its source is a key and its target
appears among the source's neighbors. -/
def isHalfEdgeB (sn : SNbrs) (e : ℕ × ℕ) : Bool :=
  match alookup sn e.1 with
  | none => false
  | some l => l.any (fun x => decide (x.1 = e.2))

/-- Whether `b` appears among the adjacency neighbors of `a`. -/
def memAdjB (adj : List (ℕ × List (ℕ × String))) (a b : ℕ) : Bool :=
  match alookup adj a with
  | none => false
  | some l => l.any (fun x => decide (x.1 = b))

/-- Every neighbor referenced anywhere in `sn` is itself a key of `sn`. -/
def keysClosedB (sn : SNbrs) : Bool :=
  sn.all (fun p => p.2.all (fun e => (alookup sn e.1).isSome))

/-- Total number of adjacency entries (the sum of all neighbor-list lengths). -/
def adjTotal {β : Type} (l : List (ℕ × List β)) : ℕ :=
  (l.map (fun p => p.2.length)).sum

/-- The vertex index the graph builder assigns to the endpoint coordinate `c`:
the `vertex_map` entry of its quantized key. -/
def endpointIndex (beams : List Beam) (t : ℚ) (c : Coord) : Option ℕ :=
  alookup (buildGraph beams t).vertexMap (quantKey t c)

/-- `c` is an endpoint of some beam of the list. -/
def occursIn (beams : List Beam) (c : Coord) : Prop :=
  ∃ b ∈ beams, c = b.coords_i ∨ c = b.coords_j

instance occursInDec (beams : List Beam) (c : Coord) : Decidable (occursIn beams c) :=
  inferInstanceAs (Decidable (∃ b ∈ beams, c = b.coords_i ∨ c = b.coords_j))

/-- The angle of the last `SetLocalAxes` call for the area at position `j`. -/
def finalAngle (evs : List (ℕ × ℚ)) (j : ℕ) : Option ℚ :=
  (eventsFor evs j).getLast?

/-- Invariants of the graphs `_build_graph` produces: vertex-map values are
keys of the adjacency structure, are bounded by `count` and are assigned
injectively; adjacency keys are bounded and unique; adjacency is symmetric;
and every referenced neighbor is a key. -/
structure BuildInv (g : Graph) : Prop where
  vmAdj : ∀ k v, alookup g.vertexMap k = some v → (alookup g.adj v).isSome = true
  vmLt : ∀ k v, alookup g.vertexMap k = some v → v < g.count
  vmInj : ∀ k1 k2 v, alookup g.vertexMap k1 = some v → alookup g.vertexMap k2 = some v → k1 = k2
  adjKeysLt : ∀ k, k ∈ g.adj.map Prod.fst → k < g.count
  adjKeysNodup : (g.adj.map Prod.fst).Nodup
  sym : ∀ a b, memAdjB g.adj a b = true → memAdjB g.adj b a = true
  closed : ∀ a b, memAdjB g.adj a b = true → (alookup g.adj b).isSome = true



/-! ### Correctness of the transparent rational arithmetic wrappers -/

theorem qdiv_eq (a b : ℚ) : qdiv a b = a / b := (Rat.div_def' a b).symm

theorem qmul_eq (a b : ℚ) : qmul a b = a * b := by
  conv_rhs => rw [← Rat.num_divInt_den a, ← Rat.num_divInt_den b]
  rw [Rat.divInt_mul_divInt']
  rfl

theorem qadd_eq (a b : ℚ) : qadd a b = a + b := by
  have ha : (a.den : ℤ) ≠ 0 := by exact_mod_cast a.den_nz
  have hb : (b.den : ℤ) ≠ 0 := by exact_mod_cast b.den_nz
  conv_rhs => rw [← Rat.num_divInt_den a, ← Rat.num_divInt_den b]
  rw [Rat.divInt_add_divInt _ _ ha hb]
  rw [qadd]

theorem qsub_eq (a b : ℚ) : qsub a b = a - b := by
  have ha : (a.den : ℤ) ≠ 0 := by exact_mod_cast a.den_nz
  have hb : (b.den : ℤ) ≠ 0 := by exact_mod_cast b.den_nz
  conv_rhs => rw [← Rat.num_divInt_den a, ← Rat.num_divInt_den b]
  rw [Rat.divInt_sub_divInt _ _ ha hb]
  rw [qsub]

theorem qofInt_eq (z : ℤ) : qofInt z = (z : ℚ) := Rat.divInt_one z

theorem ratFloor_eq_floor (q : ℚ) : q.floor = ⌊q⌋ :=
  (Rat.floor_def' q).trans Rat.floor_def.symm

/-- The normalization `best_angle % 360` lands in `[0, 360)` for every input:
`pyMod a 360` is `360` times the fractional part of `a / 360`. -/
theorem pyMod_range (a : ℚ) : 0 ≤ pyMod a 360 ∧ pyMod a 360 < 360 := by
  have h : pyMod a 360 = 360 * Int.fract (a / 360) := by
    rw [pyMod, qsub_eq, qmul_eq, qofInt_eq, ratFloor_eq_floor, qdiv_eq, Int.fract]
    ring
  constructor
  · rw [h]
    have := Int.fract_nonneg (a / 360)
    positivity
  · rw [h]
    have h1 : Int.fract (a / 360) < 1 := Int.fract_lt_one (a / 360)
    nlinarith [Int.fract_nonneg (a / 360)]


/-! ### Concrete scenario evaluations -/

/-- C1: the face filter does NOT guarantee 4 distinct vertices.  On the
dangling collinear chain (0,0)-(1,0)-(2,0) the tracer walks out and back,
producing the closed walk `[0, 1, 2, 1]`; it has 4 entries, so the
quadrilateral filter accepts it although vertex 1 repeats, and
`add_floor_areas` emits a zero-area panel whose coordinate loop repeats
(1,0,10).  This contradicts the stated property (and the code's own
"closed polygons" reading), exhibiting the failing input for the C1 bug. -/
theorem chain_input_creates_degenerate_quad_panel :
    (findAllFaces (computeAngles (buildGraph chainBeams tol))).uniqueFaces = [[0, 1, 2, 1]] ∧
    ¬ ([0, 1, 2, 1] : List ℕ).Nodup ∧
    ((findAllFaces (computeAngles (buildGraph chainBeams tol))).uniqueFaces.map
      (fun f => f.map (vertexCoords (buildGraph chainBeams tol).vertexMap))) =
      [[(0, 0, 10), (1, 0, 10), (2, 0, 10), (1, 0, 10)]] ∧
    addFloorAreas (hostOf chainBeams) at2ex 10 tol = (["Area_1"], 0) := by
  decide

/-- C2: on the 4-connector square (0,0)-(10,0)-(10,10)-(0,10) at z = 10 with
tolerance 0.01, detection finds exactly one panel, its ordered loop is the
4 corner coordinates, the entry point returns it with the success status 0,
and a trace started from any of the 8 half-edges completes with a length-4
face whose vertex set is the full corner set. -/
theorem square_bay_detection_roundtrip :
    (findAllFaces squareSN).uniqueFaces = [[0, 1, 2, 3]] ∧
    ((findAllFaces squareSN).uniqueFaces.map
      (fun f => f.map (vertexCoords (buildGraph squareBeams tol).vertexMap))) =
      [[(0, 0, 10), (10, 0, 10), (10, 10, 10), (0, 10, 10)]] ∧
    addFloorAreas (hostOf squareBeams) at2ex 10 tol = (["Area_1"], 0) ∧
    startPairs squareSN = [(0, 1), (0, 3), (1, 2), (1, 0), (2, 1), (2, 3), (3, 0), (3, 2)] ∧
    ((startPairs squareSN).all (fun p =>
      decide ((traceFace squareSN p.1 p.2 []).outcome = Outcome.complete ∧
        (traceFace squareSN p.1 p.2 []).face.length = 4 ∧
        (traceFace squareSN p.1 p.2 []).face.toFinset = ({0, 1, 2, 3} : Finset ℕ)))) = true := by
  decide

/-- C3 counterexample: already on the square input a half-edge is traversed
by two different traces.  The closing half-edge of a completed face is never
marked, so the trace started at (1,0) re-walks (0,3) and (3,2), both marked
before by the trace started at (0,3); counting multiplicity, the traces
traverse 12 half-edges while the graph has only 2 x 4 = 8. -/
theorem square_half_edge_retraced_by_later_trace :
    (((findAllFaces squareSN).traces[1]?).map TraceRes.marked =
      some [(0, 3), (3, 2), (2, 1)]) ∧
    (((findAllFaces squareSN).traces[2]?).map TraceRes.marked =
      some [(1, 0), (0, 3), (3, 2)]) ∧
    ((findAllFaces squareSN).traces.flatMap TraceRes.marked).length = 12 ∧
    2 * squareBeams.length = 8 := by
  decide

/-- C4 counterexample: on the bent dangling chain (0,0)-(1,0)-(1,1), an open
polyline closing no loop, the very first trace does not abort: it completes
with the walk `[0, 1, 2, 1]`, the walk passes the filter, and the final
panel list contains a panel built from the dangling edges. -/
theorem bent_chain_produces_panel_from_dangling_edges :
    (((findAllFaces (computeAngles (buildGraph bentBeams tol))).traces[0]?).map
      TraceRes.outcome = some Outcome.complete) ∧
    (findAllFaces (computeAngles (buildGraph bentBeams tol))).uniqueFaces = [[0, 1, 2, 1]] ∧
    addFloorAreas (hostOf bentBeams) at2ex 10 tol = (["Area_1"], 0) := by
  decide

/-- C5 counterexample: the endpoints 1.004 and 1.006 differ by 0.002, less
than the tolerance 0.01 but more than zero, yet they straddle a quantization
boundary (1.004 rounds to the grid point 1.00, 1.006 to 1.01), so the graph
builder assigns them the distinct vertex indices 1 and 2. -/
theorem close_endpoints_straddling_grid_not_merged :
    (Rat.divInt 503 500 - Rat.divInt 251 250 = Rat.divInt 1 500) ∧
    ((0 : ℚ) < Rat.divInt 1 500) ∧
    (Rat.divInt 1 500 < tol) ∧
    endpointIndex straddleBeams tol (Rat.divInt 251 250, 0, 0) = some 1 ∧
    endpointIndex straddleBeams tol (Rat.divInt 503 500, 0, 0) = some 2 ∧
    (1 : ℕ) ≠ 2 := by
  refine ⟨?_, by decide, by decide, by decide, by decide, by decide⟩
  rw [← qsub_eq]
  decide

/-- C6 counterexample: the entry point's status vocabulary is the numeric
pair 0 / 1, not a two-element set of non-error codes.  The no-input outcome
returns the SAME status 0 that a successful detection returns (there is no
distinct NO_INPUT value), and a raising host produces the third outcome
`([], 1)`, an error status outside any rendering of the set of the two
non-error codes. -/
theorem status_not_confined_to_ok_no_input :
    addFloorAreas hostFail at2ex 10 tol = ([], 1) ∧
    addFloorAreas (hostOf []) at2ex 10 tol = ([], 0) ∧
    addFloorAreas (hostOf squareBeams) at2ex 10 tol = (["Area_1"], 0) ∧
    (1 : ℕ) ≠ 0 := by
  decide

/-- C9 counterexample: for the square panel with `GetPoints` failing, only
the bounding-box assignment 0 is issued, yet that final angle coincides with
the normalized shortest-edge angle (also 0): the final angle can equal the
shortest-edge angle even when the points were never retrieved, refuting the
claim's "only in that second case".  (On this input every evaluated edge
direction is axis-aligned, where `at2ex` agrees with
`math.degrees(math.atan2(dy, dx))` exactly.) -/
theorem final_angle_equals_shortest_edge_angle_without_retrieval :
    createAreas (vertexCoords (buildGraph squareBeams tol).vertexMap) (fun _ => none)
        (findAllFaces squareSN).uniqueFaces =
      ([⟨0, "Area_1", [0, 10, 10, 0], [0, 0, 10, 10]⟩], [(0, 0)]) ∧
    axisEvents at2ex (vertexCoords (buildGraph squareBeams tol).vertexMap) (fun _ => none)
        (fun _ => false) (findAllFaces squareSN).uniqueFaces = [(0, 0)] ∧
    finalAngle (axisEvents at2ex (vertexCoords (buildGraph squareBeams tol).vertexMap)
        (fun _ => none) (fun _ => false) (findAllFaces squareSN).uniqueFaces) 0 = some 0 ∧
    pyMod (shortestAngle at2ex (List.zip [0, 10, 10, 0] [0, 0, 10, 10])) 360 = 0 := by
  decide


/-! ### The entry point's status discipline -/

theorem body_ok_status (h : Host) (at2 : ℚ → ℚ → ℚ) (z t : ℚ)
    (r : List String × ℕ) (hr : addFloorAreasBody h at2 z t = .ok r) : r.2 = 0 := by
  cases hbeams : h.beams with
  | error e =>
    rw [addFloorAreasBody, hbeams] at hr
    cases hr
  | ok beams =>
    simp only [addFloorAreasBody, hbeams] at hr
    split_ifs at hr <;> cases hr <;> rfl

/-- C10: `add_floor_areas` never propagates an exception: whenever the `try`
body raises, the catch-all handler returns exactly `([], 1)`, and whenever
the body does not raise, the returned status is 0 — so status 1 is produced
only by the handler. -/
theorem entry_point_catches_all_exceptions (h : Host) (at2 : ℚ → ℚ → ℚ) (z t : ℚ) :
    (bodyRaised h at2 z t = true ∧ addFloorAreas h at2 z t = ([], 1)) ∨
    (bodyRaised h at2 z t = false ∧ (addFloorAreas h at2 z t).2 = 0) := by
  cases hb : addFloorAreasBody h at2 z t with
  | error e =>
    left
    rw [bodyRaised, addFloorAreas, hb]
    exact ⟨rfl, rfl⟩
  | ok r =>
    right
    rw [bodyRaised, addFloorAreas, hb]
    exact ⟨rfl, body_ok_status h at2 z t r hb⟩

/-- C6 (amended): when the host's beam retrieval succeeds and either zero
connectors qualify at the elevation or zero closed faces are found, the
entry point returns `([], 0)`: the empty panel list with the same success
status 0 that a successful detection uses (there is no separate NO_INPUT
code), and this outcome is distinct from the error status 1 of the
exception handler. -/
theorem no_input_returns_empty_with_success_status (h : Host) (at2 : ℚ → ℚ → ℚ)
    (z t : ℚ) (beams : List Beam) (hbeams : h.beams = .ok beams)
    (hno : beams = [] ∨
      ((findAllFaces (computeAngles (buildGraph beams t))).exn = false ∧
       (findAllFaces (computeAngles (buildGraph beams t))).uniqueFaces = [])) :
    addFloorAreas h at2 z t = ([], 0) ∧ (addFloorAreas h at2 z t).2 ≠ 1 := by
  have hbody : addFloorAreasBody h at2 z t = .ok ([], 0) := by
    simp only [addFloorAreasBody, hbeams]
    rcases hno with rfl | ⟨hexn, hfaces⟩
    · simp
    · by_cases hemp : beams.isEmpty = true
      · simp [hemp]
      · simp [hemp, hexn, hfaces]
  rw [addFloorAreas, hbody]
  exact ⟨rfl, by decide⟩

/-- Witness for C6 (amended): the empty-input host. -/
theorem no_input_returns_empty_with_success_status_witness :
    (hostOf []).beams = .ok [] ∧
    (addFloorAreas (hostOf []) at2ex 10 tol = ([], 0) ∧
     (addFloorAreas (hostOf []) at2ex 10 tol).2 ≠ 1) :=
  ⟨rfl, no_input_returns_empty_with_success_status (hostOf []) at2ex 10 tol [] rfl (Or.inl rfl)⟩


/-! ### Termination and key-closure of the face tracer -/

theorem findBackIdx_lt_length (prev : ℕ) :
    ∀ (l : List NEntry) (i : ℕ), findBackIdx prev l = some i → i < l.length := by
  intro l
  induction l with
  | nil => intro i h; cases h
  | cons e rest ih =>
    intro i h
    rw [findBackIdx] at h
    by_cases he : e.1 = prev
    · rw [if_pos he] at h
      cases h
      simp
    · rw [if_neg he] at h
      rcases Option.map_eq_some'.mp h with ⟨j, hj, rfl⟩
      have := ih j hj
      simp only [List.length_cons]
      omega

theorem findBackIdx_isSome_of_mem (prev : ℕ) :
    ∀ (l : List NEntry), prev ∈ l.map Prod.fst → (findBackIdx prev l).isSome = true := by
  intro l
  induction l with
  | nil => intro h; cases h
  | cons e rest ih =>
    intro h
    rw [findBackIdx]
    by_cases he : e.1 = prev
    · rw [if_pos he]; rfl
    · rw [if_neg he]
      rcases List.mem_map.mp h with ⟨x, hx, hxp⟩
      rcases List.mem_cons.mp hx with rfl | hx'
    

      · exact absurd hxp he
      · have := ih (List.mem_map.mpr ⟨x, hx', hxp⟩)
        rcases Option.isSome_iff_exists.mp this with ⟨j, hj⟩
        rw [hj]
        rfl

theorem alookup_eq_some_mem {α β : Type} [DecidableEq α] (l : List (α × β)) (k : α) (v : β)
    (h : alookup l k = some v) : ∃ q, q ∈ l ∧ q.1 = k ∧ q.2 = v := by
  rw [alookup] at h
  rcases Option.map_eq_some'.mp h with ⟨q, hq, hv⟩
  refine ⟨q, List.mem_of_find?_eq_some hq, ?_, hv⟩
  have h2 := List.find?_some hq
  exact of_decide_eq_true h2

theorem isHalfEdgeB_of_lookup (sn : SNbrs) (a b : ℕ) (nbrs : List NEntry)
    (hl : alookup sn a = some nbrs) (hb : b ∈ nbrs.map Prod.fst) :
    isHalfEdgeB sn (a, b) = true := by
  rw [isHalfEdgeB]
  simp only [hl]
  rcases List.mem_map.mp hb with ⟨x, hx, hxb⟩
  exact List.any_eq_true.mpr ⟨x, hx, decide_eq_true hxb⟩

theorem keysClosedB_closed (sn : SNbrs) (hc : keysClosedB sn = true) (a b : ℕ)
    (hab : isHalfEdgeB sn (a, b) = true) : (alookup sn b).isSome = true := by
  rw [isHalfEdgeB] at hab
  cases hl : alookup sn a with
  | none => rw [hl] at hab; cases hab
  | some l =>
    rw [hl] at hab
    simp only at hab
    rcases List.any_eq_true.mp hab with ⟨x, hx, hxb⟩
    have hxb' : x.1 = b := of_decide_eq_true hxb
    rcases alookup_eq_some_mem sn a l hl with ⟨q, hq, _, hql⟩
    rw [keysClosedB] at hc
    have h1 := List.all_eq_true.mp hc q hq
    simp only at h1
    have h2 := List.all_eq_true.mp h1 x (hql ▸ hx)
    simp only at h2
    rw [hxb'] at h2
    exact h2

theorem traceGo_iters_le (sn : SNbrs) (startV : ℕ) :
    ∀ (fuel cur nvc : ℕ) (face : List ℕ) (vis mk : List (ℕ × ℕ)) (it : ℕ),
      (traceGo sn startV fuel cur nvc face vis mk it).iters ≤ it + fuel := by
  intro fuel
  induction fuel with
  | zero =>
    intro cur nvc face vis mk it
    simp [traceGo]
  | succ n ih =>
    intro cur nvc face vis mk it
    simp only [traceGo]
    cases halok : alookup sn nvc with
    | none =>
      simp only [halok]
      show it + 1 ≤ it + (n + 1)
      omega
    | some nbrs =>
      simp only [halok]
      cases hfind : findBackIdx cur nbrs with
      | none =>
        simp only [hfind]
        show it + 1 ≤ it + (n + 1)
        omega
      | some back =>
        simp only [hfind]
        by_cases hs : ((nbrs[(back + 1) % nbrs.length]?).map (·.1)).getD 0 = startV
        · simp only [if_pos hs]
          show it + 1 ≤ it + (n + 1)
          omega
        · simp only [if_neg hs]
          have h2 := ih nvc (((nbrs[(back + 1) % nbrs.length]?).map (·.1)).getD 0)
            (face ++ [nvc]) (visitAdd vis (cur, nvc)) (mk ++ [(cur, nvc)]) (it + 1)
          omega


theorem traceGo_no_keyErr (sn : SNbrs) (hc : keysClosedB sn = true) (startV : ℕ) :
    ∀ (fuel cur nvc : ℕ) (face : List ℕ) (vis mk : List (ℕ × ℕ)) (it : ℕ),
      (alookup sn nvc).isSome = true →
      (traceGo sn startV fuel cur nvc face vis mk it).outcome ≠ Outcome.keyErr := by
  intro fuel
  induction fuel with
  | zero =>
    intro cur nvc face vis mk it _
    simp [traceGo]
  | succ n ih =>
    intro cur nvc face vis mk it hnvc
    simp only [traceGo]
    rcases Option.isSome_iff_exists.mp hnvc with ⟨nbrs, hnbrs⟩
    simp only [hnbrs]
    cases hfind : findBackIdx cur nbrs with
    | none =>
      simp only [hfind]
      simp
    | some back =>
      simp only [hfind]
      by_cases hs : ((nbrs[(back + 1) % nbrs.length]?).map (·.1)).getD 0 = startV
      · simp only [if_pos hs]
        simp
      · simp only [if_neg hs]
        apply ih
        have hlen : back < nbrs.length := findBackIdx_lt_length cur nbrs back hfind
        have hidx : (back + 1) % nbrs.length < nbrs.length := Nat.mod_lt _ (by omega)
        have hget : nbrs[(back + 1) % nbrs.length]? = some nbrs[(back + 1) % nbrs.length] :=
          List.getElem?_eq_getElem hidx
        have hmem : ((nbrs[(back + 1) % nbrs.length]?).map (·.1)).getD 0 ∈ nbrs.map Prod.fst := by
      

        
          rw [hget]
          exact List.mem_map.mpr ⟨_, List.getElem_mem hidx, rfl⟩
        exact keysClosedB_closed sn hc nvc _ (isHalfEdgeB_of_lookup sn nvc _ nbrs hnbrs hmem)

/-- C7: for every sorted-neighbor structure whose referenced neighbors are
all keys and every starting half-edge into a key, a single face trace
terminates: it runs at most 1000 loop iterations, raises no `KeyError`, and
returns either the completed face or the empty list. -/
theorem trace_face_terminates_within_cap (sn : SNbrs) (v w : ℕ) (vis : List (ℕ × ℕ))
    (hc : keysClosedB sn = true) (hw : (alookup sn w).isSome = true) :
    (traceFace sn v w vis).iters ≤ 1000 ∧
    (traceFace sn v w vis).outcome ≠ Outcome.keyErr ∧
    ((traceFace sn v w vis).outcome = Outcome.complete ∧
        pyRet (traceFace sn v w vis) = (traceFace sn v w vis).face ∨
      pyRet (traceFace sn v w vis) = []) := by
  refine ⟨?_, ?_, ?_⟩
  · have h := traceGo_iters_le sn v 1000 v w [v] vis [] 0
    simpa [traceFace] using h
  · exact traceGo_no_keyErr sn hc v 1000 v w [v] vis [] 0 hw
  · by_cases hcpl : (traceFace sn v w vis).outcome = Outcome.complete
    · exact Or.inl ⟨hcpl, by rw [pyRet, if_pos hcpl]⟩
    · exact Or.inr (by rw [pyRet, if_neg hcpl])

/-- Witness for C7 at the square input, starting half-edge (0, 1). -/
theorem trace_face_terminates_within_cap_witness :
    (keysClosedB squareSN = true ∧ (alookup squareSN 1).isSome = true) ∧
    ((traceFace squareSN 0 1 []).iters ≤ 1000 ∧
     (traceFace squareSN 0 1 []).outcome ≠ Outcome.keyErr ∧
     ((traceFace squareSN 0 1 []).outcome = Outcome.complete ∧
         pyRet (traceFace squareSN 0 1 []) = (traceFace squareSN 0 1 []).face ∨
       pyRet (traceFace squareSN 0 1 []) = [])) :=
  ⟨⟨by decide, by decide⟩,
   trace_face_terminates_within_cap squareSN 0 1 [] (by decide) (by decide)⟩


/-! ### Association-list and scan-loop computation rules -/

theorem alookup_nil {α β : Type} [DecidableEq α] (k : α) :
    alookup ([] : List (α × β)) k = none := rfl

theorem alookup_cons {α β : Type} [DecidableEq α] (p : α × β) (l : List (α × β)) (k : α) :
    alookup (p :: l) k = if p.1 = k then some p.2 else alookup l k := by
  by_cases h : p.1 = k
  · simp [alookup, List.find?, h]
  · simp [alookup, List.find?, h]

theorem traceGo_one_step (sn : SNbrs) (startV cur nvc : ℕ) (face : List ℕ)
    (vis mk : List (ℕ × ℕ)) (it fuel : ℕ) (nbrs : List NEntry)
    (hl : alookup sn nvc = some nbrs) (back : ℕ) (hf : findBackIdx cur nbrs = some back)
    (hs : ((nbrs[(back + 1) % nbrs.length]?).map (·.1)).getD 0 = startV) :
    traceGo sn startV (fuel + 1) cur nvc face vis mk it =
      ⟨face ++ [nvc], visitAdd vis (cur, nvc), mk ++ [(cur, nvc)], it + 1, .complete⟩ := by
  simp only [traceGo, hl, hf, if_pos hs]

theorem runTraces_nil (sn : SNbrs) (s : FindState) : runTraces sn [] s = s := rfl

theorem runTraces_cons_skip (sn : SNbrs) (v w : ℕ) (rest : List (ℕ × ℕ)) (s : FindState)
    (hmem : (v, w) ∈ s.visited) :
    runTraces sn ((v, w) :: rest) s = runTraces sn rest s := by
  simp only [runTraces, if_pos hmem]

theorem runTraces_cons_go (sn : SNbrs) (v w : ℕ) (rest : List (ℕ × ℕ)) (s : FindState)
    (hmem : (v, w) ∉ s.visited) (hkey : ((traceFace sn v w s.visited).outcome = Outcome.keyErr) = False) :
    runTraces sn ((v, w) :: rest) s =
      runTraces sn rest
        { visited := (traceFace sn v w s.visited).visited
          allFaces := s.allFaces ++
            (if 3 ≤ (pyRet (traceFace sn v w s.visited)).length
              then [(traceFace sn v w s.visited).face] else [])
          traces := s.traces ++ [traceFace sn v w s.visited]
          exn := s.exn } := by
  simp only [runTraces, if_neg hmem, hkey, if_false]

/-- C4 (amended): an input consisting of a single dangling connector (its two
endpoints quantizing to distinct keys) produces no face at all: both traces
complete immediately with 2-vertex walks, every trace's returned face has
fewer than 3 vertices, nothing passes the filter, no `KeyError` occurs, and
the entry point returns `([], 0)` with no exception escaping. -/
theorem single_dangling_connector_yields_no_panel (b : Beam) (t z : ℚ) (h : Host)
    (at2 : ℚ → ℚ → ℚ) (hk : quantKey t b.coords_i ≠ quantKey t b.coords_j)
    (hbeams : h.beams = .ok [b]) :
    (findAllFaces (computeAngles (buildGraph [b] t))).allFaces = [] ∧
    ((findAllFaces (computeAngles (buildGraph [b] t))).traces.all
      (fun r => decide ((pyRet r).length < 3))) = true ∧
    (findAllFaces (computeAngles (buildGraph [b] t))).uniqueFaces = [] ∧
    (findAllFaces (computeAngles (buildGraph [b] t))).exn = false ∧
    addFloorAreas h at2 z t = ([], 0) := by
  have hbg : buildGraph [b] t =
      ⟨[(quantKey t b.coords_i, 0), (quantKey t b.coords_j, 1)],
       [(0, [(1, b.name)]), (1, [(0, b.name)])], 2⟩ := by
    simp [buildGraph, buildStep, insertKey, alookup_cons, alookup_nil, adjPush, hk]
  have hsn : computeAngles (buildGraph [b] t) =
      [(0, [(1, b.name, (qsub (quantKey t b.coords_j).1 (quantKey t b.coords_i).1,
                         qsub (quantKey t b.coords_j).2.1 (quantKey t b.coords_i).2.1))]),
       (1, [(0, b.name, (qsub (quantKey t b.coords_i).1 (quantKey t b.coords_j).1,
                         qsub (quantKey t b.coords_i).2.1 (quantKey t b.coords_j).2.1))])] := by
    rw [hbg]
    exact rfl
  generalize hdA : (qsub (quantKey t b.coords_j).1 (quantKey t b.coords_i).1,
    qsub (quantKey t b.coords_j).2.1 (quantKey t b.coords_i).2.1) = dA at hsn
  generalize hdB : (qsub (quantKey t b.coords_i).1 (quantKey t b.coords_j).1,
    qsub (quantKey t b.coords_i).2.1 (quantKey t b.coords_j).2.1) = dB at hsn
  have hT1 : traceFace (computeAngles (buildGraph [b] t)) 0 1 [] =
      ⟨[0, 1], [(0, 1)], [(0, 1)], 1, .complete⟩ := by
    rw [traceFace, show (1000 : ℕ) = 999 + 1 from rfl,
      traceGo_one_step _ 0 0 1 [0] [] [] 0 999 [(0, b.name, dB)]
        (by rw [hsn]; exact rfl) 0 (by exact rfl) (by simp)]
    exact rfl
  have hT2 : traceFace (computeAngles (buildGraph [b] t)) 1 0 [(0, 1)] =
      ⟨[1, 0], [(0, 1), (1, 0)], [(1, 0)], 1, .complete⟩ := by
    rw [traceFace, show (1000 : ℕ) = 999 + 1 from rfl,
      traceGo_one_step _ 1 1 0 [1] [(0, 1)] [] 0 999 [(1, b.name, dA)]
        (by rw [hsn]; exact rfl) 0 (by exact rfl) (by simp)]
    exact rfl
  have hfa : findAllFaces (computeAngles (buildGraph [b] t)) =
      ⟨[], [], [(0, 1), (1, 0)],
       [⟨[0, 1], [(0, 1)], [(0, 1)], 1, .complete⟩,
        ⟨[1, 0], [(0, 1), (1, 0)], [(1, 0)], 1, .complete⟩], false⟩ := by
    rw [findAllFaces, show startPairs (computeAngles (buildGraph [b] t)) = [(0, 1), (1, 0)]
      from by rw [hsn]; exact rfl]
    rw [runTraces_cons_go _ 0 1 _ _ (by simp) (by rw [hT1]; simp), hT1]
    rw [runTraces_cons_go _ 1 0 _ _ (by simp) (by rw [hT2]; simp), hT2]
    rfl
  refine ⟨by rw [hfa], by rw [hfa]; rfl, by rw [hfa], by rw [hfa], ?_⟩
  rw [addFloorAreas, addFloorAreasBody, hbeams]
  simp only [hfa]
  rfl

/-- Witness for C4 (amended): the single dangling connector (0,0,10)-(1,0,10). -/
theorem single_dangling_connector_yields_no_panel_witness :
    (quantKey tol (0, 0, 10) ≠ quantKey tol (1, 0, 10) ∧
      (hostOf oneBeam).beams = .ok [(⟨"B1", (0, 0, 10), (1, 0, 10)⟩ : Beam)]) ∧
    ((findAllFaces (computeAngles (buildGraph [(⟨"B1", (0, 0, 10), (1, 0, 10)⟩ : Beam)] tol))).allFaces = [] ∧
     ((findAllFaces (computeAngles (buildGraph [(⟨"B1", (0, 0, 10), (1, 0, 10)⟩ : Beam)] tol))).traces.all
       (fun r => decide ((pyRet r).length < 3))) = true ∧
     (findAllFaces (computeAngles (buildGraph [(⟨"B1", (0, 0, 10), (1, 0, 10)⟩ : Beam)] tol))).uniqueFaces = [] ∧
     (findAllFaces (computeAngles (buildGraph [(⟨"B1", (0, 0, 10), (1, 0, 10)⟩ : Beam)] tol))).exn = false ∧
     addFloorAreas (hostOf oneBeam) at2ex 10 tol = ([], 0)) :=
  ⟨⟨by decide, rfl⟩,
   single_dangling_connector_yields_no_panel ⟨"B1", (0, 0, 10), (1, 0, 10)⟩ tol 10
     (hostOf oneBeam) at2ex (by decide) rfl⟩


/-! ### Lookup lemmas for append and push -/

theorem alookup_append_some {α β : Type} [DecidableEq α] (l l' : List (α × β)) (k : α) (v : β)
    (h : alookup l k = some v) : alookup (l ++ l') k = some v := by
  induction l with
  | nil => rw [alookup_nil] at h; cases h
  | cons p rest ih =>
    rw [alookup_cons] at h
    rw [List.cons_append, alookup_cons]
    by_cases hp : p.1 = k
    · rw [if_pos hp] at h ⊢; exact h
    · rw [if_neg hp] at h ⊢; exact ih h

theorem alookup_append_none {α β : Type} [DecidableEq α] (l l' : List (α × β)) (k : α)
    (h : alookup l k = none) : alookup (l ++ l') k = alookup l' k := by
  induction l with
  | nil => rw [List.nil_append]
  | cons p rest ih =>
    rw [alookup_cons] at h
    rw [List.cons_append, alookup_cons]
    by_cases hp : p.1 = k
    · rw [if_pos hp] at h; cases h
    · rw [if_neg hp] at h ⊢; exact ih h

theorem mem_keys_of_alookup_some {α β : Type} [DecidableEq α] (l : List (α × β)) (k : α) (v : β)
    (h : alookup l k = some v) : k ∈ l.map Prod.fst := by
  rcases alookup_eq_some_mem l k v h with ⟨q, hq, hqk, _⟩
  exact List.mem_map.mpr ⟨q, hq, hqk⟩

theorem alookup_adjPush {β : Type} (v : ℕ) (e : β) (u : ℕ) :
    ∀ (l : List (ℕ × List β)),
      alookup (adjPush l v e) u = (alookup l u).map (fun es => if u = v then es ++ [e] else es) := by
  intro l
  induction l with
  | nil => simp [adjPush, alookup_nil]
  | cons p rest ih =>
    rcases p with ⟨k, es⟩
    rw [adjPush]
    by_cases hkv : k = v
    · rw [if_pos hkv, alookup_cons, alookup_cons]
      by_cases hku : k = u
      · rw [if_pos hku, if_pos hku]
        simp only [Option.map_some']
        rw [if_pos (by rw [← hku, hkv])]
      · rw [if_neg hku, if_neg hku]
        have huv : u ≠ v := fun h => hku (by rw [hkv, h])
        cases halt : alookup rest u with
        | none => rfl
        | some l0 => simp only [Option.map_some', if_neg huv]
    · rw [if_neg hkv, alookup_cons, alookup_cons]
      by_cases hku : k = u
      · rw [if_pos hku, if_pos hku]
        simp only [Option.map_some']
        rw [if_neg (fun h => hkv (by rw [hku, h]))]
      · rw [if_neg hku, if_neg hku]
        exact ih

theorem adjPush_keys {β : Type} (v : ℕ) (e : β) :
    ∀ (l : List (ℕ × List β)), (adjPush l v e).map Prod.fst = l.map Prod.fst := by
  intro l
  induction l with
  | nil => rfl
  | cons p rest ih =>
    rcases p with ⟨k, es⟩
    rw [adjPush]
    by_cases hkv : k = v
    · rw [if_pos hkv]
      simp
    · rw [if_neg hkv, List.map_cons, List.map_cons, ih]

theorem isSome_alookup_adjPush {β : Type} (l : List (ℕ × List β)) (v : ℕ) (e : β) (u : ℕ) :
    (alookup (adjPush l v e) u).isSome = (alookup l u).isSome := by
  rw [alookup_adjPush]
  cases alookup l u <;> rfl

theorem adjTotal_adjPush {β : Type} (v : ℕ) (e : β) :
    ∀ (l : List (ℕ × List β)), (alookup l v).isSome = true →
      adjTotal (adjPush l v e) = adjTotal l + 1 := by
  intro l
  induction l with
  | nil => intro h; rw [alookup_nil] at h; cases h
  | cons p rest ih =>
    rcases p with ⟨k, es⟩
    intro h
    rw [adjPush]
    by_cases hkv : k = v
    · rw [if_pos hkv]
      simp only [adjTotal, List.map_cons, List.sum_cons, List.length_append, List.length_cons,
        List.length_nil]
      omega
    · rw [if_neg hkv]
      rw [alookup_cons, if_neg (fun h2 => hkv h2)] at h
      simp only [adjTotal, List.map_cons, List.sum_cons]
      have h3 := ih h
      simp only [adjTotal] at h3
      omega

/-! ### Effect of push and append on adjacency membership -/

theorem memAdjB_eq_true_iff (adj : List (ℕ × List (ℕ × String))) (a b : ℕ) :
    memAdjB adj a b = true ↔
      ∃ l, alookup adj a = some l ∧ ∃ x ∈ l, x.1 = b := by
  rw [memAdjB]
  cases h : alookup adj a with
  | none =>
    simp only [Bool.false_eq_true, false_iff]
    rintro ⟨l, hl, -⟩
    cases hl
  | some l =>
    simp only
    constructor
    · intro hany
      rcases List.any_eq_true.mp hany with ⟨x, hx, hxb⟩
      exact ⟨l, rfl, x, hx, of_decide_eq_true hxb⟩
    · rintro ⟨l', hl', x, hx, hxb⟩
      cases hl'
      exact List.any_eq_true.mpr ⟨x, hx, decide_eq_true hxb⟩

theorem memAdjB_adjPush_of (adj : List (ℕ × List (ℕ × String))) (v : ℕ) (e : ℕ × String)
    (a b : ℕ) (h : memAdjB adj a b = true) : memAdjB (adjPush adj v e) a b = true := by
  rcases (memAdjB_eq_true_iff adj a b).mp h with ⟨l, hl, x, hx, hxb⟩
  apply (memAdjB_eq_true_iff _ a b).mpr
  rw [alookup_adjPush, hl]
  by_cases hav : a = v
  · exact ⟨_, by rw [Option.map_some', if_pos hav], x, List.mem_append_left _ hx, hxb⟩
  · exact ⟨_, by rw [Option.map_some', if_neg hav], x, hx, hxb⟩

theorem memAdjB_adjPush_self (adj : List (ℕ × List (ℕ × String))) (v : ℕ) (e : ℕ × String)
    (h : (alookup adj v).isSome = true) : memAdjB (adjPush adj v e) v e.1 = true := by
  rcases Option.isSome_iff_exists.mp h with ⟨l, hl⟩
  apply (memAdjB_eq_true_iff _ v e.1).mpr
  rw [alookup_adjPush, hl]
  exact ⟨_, by rw [Option.map_some', if_pos rfl], e, List.mem_append_right _ (List.mem_singleton_self e), rfl⟩

theorem memAdjB_of_adjPush (adj : List (ℕ × List (ℕ × String))) (v : ℕ) (e : ℕ × String)
    (a b : ℕ) (h : memAdjB (adjPush adj v e) a b = true) :
    memAdjB adj a b = true ∨ (a = v ∧ b = e.1) := by
  rcases (memAdjB_eq_true_iff _ a b).mp h with ⟨l, hl, x, hx, hxb⟩
  rw [alookup_adjPush] at hl
  cases h0 : alookup adj a with
  | none => rw [h0] at hl; cases hl
  | some l0 =>
    rw [h0, Option.map_some'] at hl
    by_cases hav : a = v
    · rw [if_pos hav] at hl
      injection hl with hl2
      subst hl2
      rcases List.mem_append.mp hx with hx0 | hx1
      · exact Or.inl ((memAdjB_eq_true_iff adj a b).mpr ⟨l0, h0, x, hx0, hxb⟩)
      · rcases List.mem_singleton.mp hx1 with rfl
        exact Or.inr ⟨hav, hxb.symm⟩
    · rw [if_neg hav] at hl
      injection hl with hl2
      subst hl2
      exact Or.inl ((memAdjB_eq_true_iff adj a b).mpr ⟨l0, h0, x, hx, hxb⟩)

theorem memAdjB_append_empty (adj : List (ℕ × List (ℕ × String))) (c : ℕ) (a b : ℕ) :
    memAdjB (adj ++ [(c, [])]) a b = memAdjB adj a b := by
  cases h0 : alookup adj a with
  | none =>
    rw [memAdjB, memAdjB, h0, alookup_append_none adj _ a h0, alookup_cons]
    by_cases hca : c = a
    · rw [if_pos hca]
      rfl
    · rw [if_neg hca, alookup_nil]
  | some l =>
    rw [memAdjB, memAdjB, h0, alookup_append_some adj _ a l h0]


/-! ### Invariants of the graph builder -/

theorem alookup_insert_cases {α β : Type} [DecidableEq α] (l : List (α × β)) (k0 : α) (c : β)
    (k : α) (v : β) (h : alookup (l ++ [(k0, c)]) k = some v) :
    alookup l k = some v ∨ (alookup l k = none ∧ k0 = k ∧ v = c) := by
  cases h0 : alookup l k with
  | some w =>
    rw [alookup_append_some l _ k w h0] at h
    injection h with h
    exact Or.inl (by rw [h])
  | none =>
    rw [alookup_append_none l _ k h0, alookup_cons] at h
    by_cases hk : k0 = k
    · rw [if_pos hk] at h
      injection h with h
      exact Or.inr ⟨rfl, hk, h.symm⟩
    · rw [if_neg hk, alookup_nil] at h
      cases h

theorem buildInv_init : BuildInv ⟨[], [], 0⟩ := by
  constructor
  · intro k v h; rw [alookup_nil] at h; cases h
  · intro k v h; rw [alookup_nil] at h; cases h
  · intro k1 k2 v h1 h2; rw [alookup_nil] at h1; cases h1
  · intro k h; cases h
  · exact List.nodup_nil
  · intro a b h; rw [memAdjB, alookup_nil] at h; cases h
  · intro a b h; rw [memAdjB, alookup_nil] at h; cases h

theorem insert_inv (g : Graph) (hg : BuildInv g) (k : Coord) :
    BuildInv ⟨g.vertexMap ++ [(k, g.count)], g.adj ++ [(g.count, [])], g.count + 1⟩ := by
  have hcnt : alookup g.adj g.count = none := by
    cases hc : alookup g.adj g.count with
    | none => rfl
    | some l => exact absurd (hg.adjKeysLt _ (mem_keys_of_alookup_some _ _ _ hc)) (lt_irrefl _)
  have hnewkey : (alookup (g.adj ++ [(g.count, [])]) g.count).isSome = true := by
    rw [alookup_append_none _ _ _ hcnt, alookup_cons, if_pos rfl]
    rfl
  constructor
  · intro k' v hv
    rcases alookup_insert_cases _ _ _ _ _ hv with h | ⟨_, _, rfl⟩
    · rcases Option.isSome_iff_exists.mp (hg.vmAdj k' v h) with ⟨l, hl⟩
      rw [alookup_append_some _ _ _ _ hl]
      rfl
    · exact hnewkey
  · intro k' v hv
    rcases alookup_insert_cases _ _ _ _ _ hv with h | ⟨_, _, rfl⟩
    · exact Nat.lt_succ_of_lt (hg.vmLt k' v h)
    · exact Nat.lt_succ_self _
  · intro k1 k2 v hv1 hv2
    rcases alookup_insert_cases _ _ _ _ _ hv1 with h1 | ⟨hn1, hk1, he1⟩
    · rcases alookup_insert_cases _ _ _ _ _ hv2 with h2 | ⟨hn2, hk2, he2⟩
      · exact hg.vmInj k1 k2 v h1 h2
      · exact absurd (he2 ▸ hg.vmLt k1 v h1) (lt_irrefl _)
    · rcases alookup_insert_cases _ _ _ _ _ hv2 with h2 | ⟨hn2, hk2, he2⟩
      · exact absurd (he1 ▸ hg.vmLt k2 v h2) (lt_irrefl _)
      · rw [← hk1, hk2]
  · intro a ha
    rw [List.map_append] at ha
    rcases List.mem_append.mp ha with h | h
    · exact Nat.lt_succ_of_lt (hg.adjKeysLt a h)
    · rcases List.mem_singleton.mp h with rfl
      exact Nat.lt_succ_self _
  · rw [List.map_append]
    refine List.nodup_append.mpr ⟨hg.adjKeysNodup, List.nodup_singleton _, ?_⟩
    intro a ha hb
    rcases List.mem_singleton.mp hb with rfl
    exact absurd (hg.adjKeysLt _ ha) (lt_irrefl _)
  · intro a b hab
    rw [memAdjB_append_empty] at hab
    rw [memAdjB_append_empty]
    exact hg.sym a b hab
  · intro a b hab
    rw [memAdjB_append_empty] at hab
    rcases Option.isSome_iff_exists.mp (hg.closed a b hab) with ⟨l, hl⟩
    rw [alookup_append_some _ _ _ _ hl]
    rfl

theorem insertKey_inv (g : Graph) (hg : BuildInv g) (k : Coord) : BuildInv (insertKey g k) := by
  rw [insertKey]
  split_ifs with h
  · exact insert_inv g hg k
  · exact hg

theorem push_inv (g : Graph) (hg : BuildInv g) (v1 v2 : ℕ) (nm : String)
    (h1 : (alookup g.adj v1).isSome = true) (h2 : (alookup g.adj v2).isSome = true) :
    BuildInv ⟨g.vertexMap, adjPush (adjPush g.adj v1 (v2, nm)) v2 (v1, nm), g.count⟩ := by
  have h2' : (alookup (adjPush g.adj v1 (v2, nm)) v2).isSome = true := by
    rw [isSome_alookup_adjPush]; exact h2
  constructor
  · intro k v hv
    rw [isSome_alookup_adjPush, isSome_alookup_adjPush]
    exact hg.vmAdj k v hv
  · exact hg.vmLt
  · exact hg.vmInj
  · intro a ha
    rw [adjPush_keys, adjPush_keys] at ha
    exact hg.adjKeysLt a ha
  · rw [adjPush_keys, adjPush_keys]
    exact hg.adjKeysNodup
  · intro a b hab
    rcases memAdjB_of_adjPush _ _ _ _ _ hab with hab1 | ⟨ha, hb⟩
    · rcases memAdjB_of_adjPush _ _ _ _ _ hab1 with hab0 | ⟨ha, hb⟩
      · exact memAdjB_adjPush_of _ _ _ _ _ (memAdjB_adjPush_of _ _ _ _ _ (hg.sym a b hab0))
      · rw [ha, hb]
        exact memAdjB_adjPush_self _ v2 (v1, nm) h2'
    · rw [ha, hb]
      exact memAdjB_adjPush_of _ _ _ _ _ (memAdjB_adjPush_self _ v1 (v2, nm) h1)
  · intro a b hab
    rw [isSome_alookup_adjPush, isSome_alookup_adjPush]
    rcases memAdjB_of_adjPush _ _ _ _ _ hab with hab1 | ⟨ha, hb⟩
    · rcases memAdjB_of_adjPush _ _ _ _ _ hab1 with hab0 | ⟨ha, hb⟩
      · exact hg.closed a b hab0
      · rw [hb]
        exact h2
    · rw [hb]
      exact h1

theorem insertKey_vm_mono (g : Graph) (k k' : Coord) (v : ℕ)
    (h : alookup g.vertexMap k' = some v) :
    alookup (insertKey g k).vertexMap k' = some v := by
  rw [insertKey]
  split_ifs with h0
  · exact alookup_append_some _ _ _ _ h
  · exact h

theorem insertKey_present (g : Graph) (k : Coord) :
    (alookup (insertKey g k).vertexMap k).isSome = true := by
  rw [insertKey]
  split_ifs with h0
  · have hn : alookup g.vertexMap k = none := by
      cases hh : alookup g.vertexMap k with
      | none => rfl
      | some v => rw [hh] at h0; cases h0
    rw [alookup_append_none _ _ _ hn, alookup_cons, if_pos rfl]
    rfl
  · cases hh : alookup g.vertexMap k with
    | none => rw [hh] at h0; exact absurd rfl h0
    | some v => rfl

theorem buildStep_vm (t : ℚ) (g : Graph) (b : Beam) :
    (buildStep t g b).vertexMap =
      (insertKey (insertKey g (quantKey t b.coords_i)) (quantKey t b.coords_j)).vertexMap := rfl

theorem buildStep_inv (t : ℚ) (b : Beam) (g : Graph) (hg : BuildInv g) :
    BuildInv (buildStep t g b) := by
  have hinv2 : BuildInv (insertKey (insertKey g (quantKey t b.coords_i)) (quantKey t b.coords_j)) :=
    insertKey_inv _ (insertKey_inv _ hg _) _
  have hiP : (alookup (insertKey (insertKey g (quantKey t b.coords_i))
      (quantKey t b.coords_j)).vertexMap (quantKey t b.coords_i)).isSome = true := by
    rcases Option.isSome_iff_exists.mp (insertKey_present g (quantKey t b.coords_i)) with ⟨v, hv⟩
    rw [insertKey_vm_mono _ _ _ _ hv]
    rfl
  have hjP := insertKey_present (insertKey g (quantKey t b.coords_i)) (quantKey t b.coords_j)
  rcases Option.isSome_iff_exists.mp hiP with ⟨v1, hv1⟩
  rcases Option.isSome_iff_exists.mp hjP with ⟨v2, hv2⟩
  have hres := push_inv _ hinv2 v1 v2 b.name (hinv2.vmAdj _ _ hv1) (hinv2.vmAdj _ _ hv2)
  rw [buildStep]
  simp only [hv1, hv2, Option.getD_some]
  exact hres

theorem foldl_buildStep_inv (t : ℚ) :
    ∀ (l : List Beam) (g : Graph), BuildInv g → BuildInv (l.foldl (buildStep t) g) := by
  intro l
  induction l with
  | nil => intro g hg; exact hg
  | cons b rest ih =>
    intro g hg
    rw [List.foldl_cons]
    exact ih _ (buildStep_inv t b g hg)

theorem buildGraph_inv (beams : List Beam) (t : ℚ) : BuildInv (buildGraph beams t) :=
  foldl_buildStep_inv t beams _ buildInv_init

theorem buildStep_vm_mono (t : ℚ) (b : Beam) (g : Graph) (k : Coord) (v : ℕ)
    (h : alookup g.vertexMap k = some v) :
    alookup (buildStep t g b).vertexMap k = some v := by
  rw [buildStep_vm]
  exact insertKey_vm_mono _ _ _ _ (insertKey_vm_mono _ _ _ _ h)

theorem foldl_buildStep_vm_mono (t : ℚ) :
    ∀ (l : List Beam) (g : Graph) (k : Coord) (v : ℕ),
      alookup g.vertexMap k = some v →
      alookup ((l.foldl (buildStep t) g)).vertexMap k = some v := by
  intro l
  induction l with
  | nil => intro g k v h; exact h
  | cons b rest ih =>
    intro g k v h
    rw [List.foldl_cons]
    exact ih _ k v (buildStep_vm_mono t b g k v h)

theorem buildStep_present (t : ℚ) (b : Beam) (g : Graph) :
    (alookup (buildStep t g b).vertexMap (quantKey t b.coords_i)).isSome = true ∧
    (alookup (buildStep t g b).vertexMap (quantKey t b.coords_j)).isSome = true := by
  constructor
  · rw [buildStep_vm]
    rcases Option.isSome_iff_exists.mp (insertKey_present g (quantKey t b.coords_i)) with ⟨v, hv⟩
    rw [insertKey_vm_mono _ _ _ _ hv]
    rfl
  · rw [buildStep_vm]
    rcases Option.isSome_iff_exists.mp
      (insertKey_present (insertKey g (quantKey t b.coords_i)) (quantKey t b.coords_j)) with ⟨v, hv⟩
    rw [hv]
    rfl

theorem foldl_occurs_present (t : ℚ) :
    ∀ (l : List Beam) (g : Graph) (c : Coord), occursIn l c →
      (alookup ((l.foldl (buildStep t) g)).vertexMap (quantKey t c)).isSome = true := by
  intro l
  induction l with
  | nil =>
    intro g c h
    rcases h with ⟨b, hb, _⟩
    cases hb
  | cons b rest ih =>
    intro g c h
    rcases h with ⟨b', hb', hc⟩
    rw [List.foldl_cons]
    rcases List.mem_cons.mp hb' with rfl | hmem
    · have hpres := buildStep_present t b' g
      rcases hc with rfl | rfl
      · rcases Option.isSome_iff_exists.mp hpres.1 with ⟨v, hv⟩
        rw [foldl_buildStep_vm_mono t rest _ _ v hv]
        rfl
      · rcases Option.isSome_iff_exists.mp hpres.2 with ⟨v, hv⟩
        rw [foldl_buildStep_vm_mono t rest _ _ v hv]
        rfl
    · exact ih _ c ⟨b', hmem, hc⟩

theorem buildGraph_occurs_present (beams : List Beam) (t : ℚ) (c : Coord)
    (h : occursIn beams c) :
    (alookup (buildGraph beams t).vertexMap (quantKey t c)).isSome = true :=
  foldl_occurs_present t beams _ c h

/-- C5 (amended): two connector endpoints receive vertex indices, and they
receive the SAME index exactly when their coordinates quantize to the same
key (`round(v/t)*t` agreeing on every axis); merging is a property of the
quantization grid, not of the distance between the points. -/
theorem endpoint_merging_iff_equal_quantized_keys (beams : List Beam) (t : ℚ) (c1 c2 : Coord)
    (h1 : occursIn beams c1) (h2 : occursIn beams c2) :
    (endpointIndex beams t c1).isSome = true ∧
    (endpointIndex beams t c1 = endpointIndex beams t c2 ↔ quantKey t c1 = quantKey t c2) := by
  have hg := buildGraph_inv beams t
  have hp1 := buildGraph_occurs_present beams t c1 h1
  have hp2 := buildGraph_occurs_present beams t c2 h2
  refine ⟨hp1, ?_, ?_⟩
  · intro he
    rcases Option.isSome_iff_exists.mp hp1 with ⟨v1, hv1⟩
    rcases Option.isSome_iff_exists.mp hp2 with ⟨v2, hv2⟩
    simp only [endpointIndex] at he
    rw [hv1, hv2] at he
    injection he with he
    exact hg.vmInj _ _ v1 hv1 (he ▸ hv2)
  · intro hk
    rw [endpointIndex, endpointIndex, hk]

/-- Witness for C5 (amended): two endpoints of the straddling input with
distinct quantized keys, hence distinct indices. -/
theorem endpoint_merging_iff_equal_quantized_keys_witness :
    (occursIn straddleBeams (0, 0, 0) ∧ occursIn straddleBeams (2, 0, 0)) ∧
    ((endpointIndex straddleBeams tol (0, 0, 0)).isSome = true ∧
     (endpointIndex straddleBeams tol (0, 0, 0) = endpointIndex straddleBeams tol (2, 0, 0) ↔
      quantKey tol (0, 0, 0) = quantKey tol (2, 0, 0))) :=
  ⟨⟨by decide, by decide⟩,
   endpoint_merging_iff_equal_quantized_keys straddleBeams tol (0, 0, 0) (2, 0, 0)
     (by decide) (by decide)⟩


/-! ### The angular sorter permutes adjacency, so symmetry transfers -/

theorem insertByAngle_perm (x : NEntry) : ∀ (l : List NEntry), List.Perm (insertByAngle x l) (x :: l) := by
  intro l
  induction l with
  | nil => exact List.Perm.refl _
  | cons y ys ih =>
    rw [insertByAngle]
    by_cases h : angleLtB x.2.2 y.2.2 = true
    · rw [if_pos h]
    · rw [if_neg h]
      exact (List.Perm.cons y ih).trans (List.Perm.swap x y ys)

theorem foldl_insertByAngle_perm :
    ∀ (l acc : List NEntry), List.Perm (l.foldl (fun a x => insertByAngle x a) acc) (acc ++ l) := by
  intro l
  induction l with
  | nil =>
    intro acc
    rw [List.append_nil]
    exact List.Perm.refl _
  | cons x xs ih =>
    intro acc
    rw [List.foldl_cons]
    refine (ih (insertByAngle x acc)).trans ?_
    refine (List.Perm.append_right xs (insertByAngle_perm x acc)).trans ?_
    exact List.perm_middle.symm

theorem sortByAngle_perm (l : List NEntry) : List.Perm (sortByAngle l) l := by
  have h := foldl_insertByAngle_perm l []
  rw [List.nil_append] at h
  exact h

theorem alookup_map_enrich (vm : List (Coord × ℕ)) (v : ℕ) :
    ∀ (l : List (ℕ × List (ℕ × String))),
      alookup (l.map (fun p => (p.1, sortByAngle (p.2.map (fun n =>
        (n.1, n.2, (qsub (vertexCoords vm n.1).1 (vertexCoords vm p.1).1,
                    qsub (vertexCoords vm n.1).2.1 (vertexCoords vm p.1).2.1))))))) v =
      (alookup l v).map (fun es => sortByAngle (es.map (fun n =>
        (n.1, n.2, (qsub (vertexCoords vm n.1).1 (vertexCoords vm v).1,
                    qsub (vertexCoords vm n.1).2.1 (vertexCoords vm v).2.1))))) := by
  intro l
  induction l with
  | nil => rfl
  | cons p rest ih =>
    rw [List.map_cons, alookup_cons, alookup_cons]
    by_cases hp : p.1 = v
    · rw [if_pos hp, if_pos hp, hp, Option.map_some']
    · rw [if_neg hp, if_neg hp, ih]

theorem alookup_computeAngles (g : Graph) (v : ℕ) :
    alookup (computeAngles g) v =
      (alookup g.adj v).map (fun es => sortByAngle (es.map (fun n =>
        (n.1, n.2, (qsub (vertexCoords g.vertexMap n.1).1 (vertexCoords g.vertexMap v).1,
                    qsub (vertexCoords g.vertexMap n.1).2.1 (vertexCoords g.vertexMap v).2.1))))) := by
  rw [computeAngles]
  exact alookup_map_enrich g.vertexMap v g.adj

theorem isHalfEdgeB_computeAngles (g : Graph) (a b : ℕ) :
    isHalfEdgeB (computeAngles g) (a, b) = memAdjB g.adj a b := by
  rw [isHalfEdgeB, memAdjB, alookup_computeAngles]
  cases h : alookup g.adj a with
  | none => rfl
  | some es =>
    simp only [Option.map_some']
    apply Bool.eq_iff_iff.mpr
    rw [List.any_eq_true, List.any_eq_true]
    constructor
    · rintro ⟨x, hx, hxb⟩
      have hx2 := (sortByAngle_perm _).mem_iff.mp hx
      rcases List.mem_map.mp hx2 with ⟨n, hn, rfl⟩
      exact ⟨n, hn, hxb⟩
    · rintro ⟨n, hn, hnb⟩
      refine ⟨(n.1, n.2, (qsub (vertexCoords g.vertexMap n.1).1 (vertexCoords g.vertexMap a).1,
        qsub (vertexCoords g.vertexMap n.1).2.1 (vertexCoords g.vertexMap a).2.1)), ?_, hnb⟩
      exact (sortByAngle_perm _).mem_iff.mpr (List.mem_map.mpr ⟨n, hn, rfl⟩)

theorem sn_sym (beams : List Beam) (t : ℚ) (a b : ℕ)
    (h : isHalfEdgeB (computeAngles (buildGraph beams t)) (a, b) = true) :
    isHalfEdgeB (computeAngles (buildGraph beams t)) (b, a) = true := by
  rw [isHalfEdgeB_computeAngles] at h ⊢
  exact (buildGraph_inv beams t).sym a b h

theorem traceGo_no_abort (sn : SNbrs)
    (hsym : ∀ a b, isHalfEdgeB sn (a, b) = true → isHalfEdgeB sn (b, a) = true) (startV : ℕ) :
    ∀ (fuel cur nvc : ℕ) (face : List ℕ) (vis mk : List (ℕ × ℕ)) (it : ℕ),
      isHalfEdgeB sn (cur, nvc) = true →
      (traceGo sn startV fuel cur nvc face vis mk it).outcome ≠ Outcome.noBack ∧
      (traceGo sn startV fuel cur nvc face vis mk it).outcome ≠ Outcome.keyErr := by
  intro fuel
  induction fuel with
  | zero =>
    intro cur nvc face vis mk it _
    exact ⟨by simp [traceGo], by simp [traceGo]⟩
  | succ n ih =>
    intro cur nvc face vis mk it hcv
    have hrev := hsym _ _ hcv
    rw [isHalfEdgeB] at hrev
    cases hl : alookup sn nvc with
    | none => rw [hl] at hrev; cases hrev
    | some nbrs =>
      rw [hl] at hrev
      simp only at hrev
      have hmemcur : cur ∈ nbrs.map Prod.fst := by
        rcases List.any_eq_true.mp hrev with ⟨x, hx, hxb⟩
        exact List.mem_map.mpr ⟨x, hx, of_decide_eq_true hxb⟩
      rcases Option.isSome_iff_exists.mp (findBackIdx_isSome_of_mem cur nbrs hmemcur)
        with ⟨back, hback⟩
      simp only [traceGo, hl, hback]
      by_cases hs : ((nbrs[(back + 1) % nbrs.length]?).map (·.1)).getD 0 = startV
      · simp only [if_pos hs]
        exact ⟨by simp, by simp⟩
      · simp only [if_neg hs]
        apply ih
        have hlen : back < nbrs.length := findBackIdx_lt_length cur nbrs back hback
        have hidx : (back + 1) % nbrs.length < nbrs.length := Nat.mod_lt _ (by omega)
        have hget : nbrs[(back + 1) % nbrs.length]? = some nbrs[(back + 1) % nbrs.length] :=
          List.getElem?_eq_getElem hidx
        have hmem : ((nbrs[(back + 1) % nbrs.length]?).map (·.1)).getD 0 ∈ nbrs.map Prod.fst := by
          rw [hget]
          exact List.mem_map.mpr ⟨_, List.getElem_mem hidx, rfl⟩
        exact isHalfEdgeB_of_lookup sn nvc _ nbrs hl hmem

/-- C8: on the sorted-neighbor structures the pipeline's own graph builder
produces, adjacency is symmetric, so the back-edge search inside a face
trace always succeeds: starting from any half-edge of the structure, a trace
can never end in the missing-back-edge abort (nor in a `KeyError`). -/
theorem back_edge_search_succeeds_on_built_graphs (beams : List Beam) (t : ℚ) (v w : ℕ)
    (vis : List (ℕ × ℕ))
    (hw : isHalfEdgeB (computeAngles (buildGraph beams t)) (v, w) = true) :
    (traceFace (computeAngles (buildGraph beams t)) v w vis).outcome ≠ Outcome.noBack ∧
    (traceFace (computeAngles (buildGraph beams t)) v w vis).outcome ≠ Outcome.keyErr :=
  traceGo_no_abort _ (sn_sym beams t) v 1000 v w [v] vis [] 0 hw

/-- Witness for C8 at the square input, starting half-edge (0, 1). -/
theorem back_edge_search_succeeds_on_built_graphs_witness :
    isHalfEdgeB (computeAngles (buildGraph squareBeams tol)) (0, 1) = true ∧
    ((traceFace (computeAngles (buildGraph squareBeams tol)) 0 1 []).outcome ≠ Outcome.noBack ∧
     (traceFace (computeAngles (buildGraph squareBeams tol)) 0 1 []).outcome ≠ Outcome.keyErr) :=
  ⟨by decide, back_edge_search_succeeds_on_built_graphs squareBeams tol 0 1 [] (by decide)⟩


/-! ### The visited set: no duplicates, only half-edges, bounded size -/

theorem visitAdd_nodup (vs : List (ℕ × ℕ)) (e : ℕ × ℕ) (h : vs.Nodup) :
    (visitAdd vs e).Nodup := by
  rw [visitAdd]
  split_ifs with hmem
  · exact h
  · refine List.nodup_append.mpr ⟨h, List.nodup_singleton _, ?_⟩
    intro a ha hb
    rcases List.mem_singleton.mp hb with rfl
    exact hmem ha

theorem visitAdd_mem (vs : List (ℕ × ℕ)) (e e' : ℕ × ℕ) (h : e' ∈ visitAdd vs e) :
    e' ∈ vs ∨ e' = e := by
  rw [visitAdd] at h
  split_ifs at h with hmem
  · exact Or.inl h
  · rcases List.mem_append.mp h with h0 | h0
    · exact Or.inl h0
    · exact Or.inr (List.mem_singleton.mp h0)

theorem traceGo_visited_inv (sn : SNbrs) (startV : ℕ) :
    ∀ (fuel cur nvc : ℕ) (face : List ℕ) (vis mk : List (ℕ × ℕ)) (it : ℕ),
      vis.Nodup → (∀ e ∈ vis, isHalfEdgeB sn e = true) → isHalfEdgeB sn (cur, nvc) = true →
      (traceGo sn startV fuel cur nvc face vis mk it).visited.Nodup ∧
      ∀ e ∈ (traceGo sn startV fuel cur nvc face vis mk it).visited, isHalfEdgeB sn e = true := by
  intro fuel
  induction fuel with
  | zero =>
    intro cur nvc face vis mk it hnd hall _
    exact ⟨hnd, hall⟩
  | succ n ih =>
    intro cur nvc face vis mk it hnd hall hcv
    have hnd' : (visitAdd vis (cur, nvc)).Nodup := visitAdd_nodup _ _ hnd
    have hall' : ∀ e ∈ visitAdd vis (cur, nvc), isHalfEdgeB sn e = true := by
      intro e he
      rcases visitAdd_mem _ _ _ he with h0 | rfl
      · exact hall e h0
      · exact hcv
    simp only [traceGo]
    cases hl : alookup sn nvc with
    | none =>
      simp only [hl]
      exact ⟨hnd', hall'⟩
    | some nbrs =>
      simp only [hl]
      cases hback : findBackIdx cur nbrs with
      | none =>
        simp only [hback]
        exact ⟨hnd', hall'⟩
      | some back =>
        simp only [hback]
        by_cases hs : ((nbrs[(back + 1) % nbrs.length]?).map (·.1)).getD 0 = startV
        · simp only [if_pos hs]
          exact ⟨hnd', hall'⟩
        · simp only [if_neg hs]
          apply ih
          · exact hnd'
          · exact hall'
          · have hlen : back < nbrs.length := findBackIdx_lt_length cur nbrs back hback
            have hidx : (back + 1) % nbrs.length < nbrs.length := Nat.mod_lt _ (by omega)
            have hget : nbrs[(back + 1) % nbrs.length]? = some nbrs[(back + 1) % nbrs.length] :=
              List.getElem?_eq_getElem hidx
            have hmem : ((nbrs[(back + 1) % nbrs.length]?).map (·.1)).getD 0 ∈ nbrs.map Prod.fst := by
              rw [hget]
              exact List.mem_map.mpr ⟨_, List.getElem_mem hidx, rfl⟩
            exact isHalfEdgeB_of_lookup sn nvc _ nbrs hl hmem

theorem runTraces_cons_keyErr (sn : SNbrs) (v w : ℕ) (rest : List (ℕ × ℕ)) (s : FindState)
    (hmem : (v, w) ∉ s.visited) (hkey : (traceFace sn v w s.visited).outcome = Outcome.keyErr) :
    runTraces sn ((v, w) :: rest) s =
      { s with visited := (traceFace sn v w s.visited).visited
               traces := s.traces ++ [traceFace sn v w s.visited]
               exn := true } := by
  simp only [runTraces, if_neg hmem, if_pos hkey]

theorem runTraces_visited_inv (sn : SNbrs) :
    ∀ (pending : List (ℕ × ℕ)) (s : FindState),
      (∀ p ∈ pending, isHalfEdgeB sn p = true) →
      s.visited.Nodup → (∀ e ∈ s.visited, isHalfEdgeB sn e = true) →
      (runTraces sn pending s).visited.Nodup ∧
      ∀ e ∈ (runTraces sn pending s).visited, isHalfEdgeB sn e = true := by
  intro pending
  induction pending with
  | nil =>
    intro s _ hnd hall
    exact ⟨hnd, hall⟩
  | cons p rest ih =>
    intro s hpend hnd hall
    rcases p with ⟨v, w⟩
    have hhead : isHalfEdgeB sn (v, w) = true := hpend _ (List.mem_cons_self _ _)
    have htail : ∀ q ∈ rest, isHalfEdgeB sn q = true := fun q hq => hpend q (List.mem_cons_of_mem _ hq)
    by_cases hmem : (v, w) ∈ s.visited
    · rw [runTraces_cons_skip sn v w rest s hmem]
      exact ih s htail hnd hall
    · have htr := traceGo_visited_inv sn v 1000 v w [v] s.visited [] 0 hnd hall hhead
      by_cases hk : (traceFace sn v w s.visited).outcome = Outcome.keyErr
      · rw [runTraces_cons_keyErr sn v w rest s hmem hk]
        exact ⟨htr.1, htr.2⟩
      · rw [runTraces_cons_go sn v w rest s hmem (by simp [hk])]
        exact ih _ htail htr.1 htr.2

theorem alookup_of_mem_nodup {α β : Type} [DecidableEq α] :
    ∀ (l : List (α × β)), (l.map Prod.fst).Nodup → ∀ q ∈ l, alookup l q.1 = some q.2 := by
  intro l
  induction l with
  | nil => intro _ q hq; cases hq
  | cons p rest ih =>
    intro hnd q hq
    rw [List.map_cons, List.nodup_cons] at hnd
    rw [alookup_cons]
    rcases List.mem_cons.mp hq with rfl | hq0
    · rw [if_pos rfl]
    · by_cases hp : p.1 = q.1
      · exact absurd (hp ▸ List.mem_map.mpr ⟨q, hq0, rfl⟩) hnd.1
      · rw [if_neg hp]
        exact ih hnd.2 q hq0

theorem startPairs_all_halfEdges (sn : SNbrs) (hnd : (sn.map Prod.fst).Nodup) :
    ∀ p ∈ startPairs sn, isHalfEdgeB sn p = true := by
  intro p hp
  rw [startPairs] at hp
  rcases List.mem_flatMap.mp hp with ⟨q, hq, hpin⟩
  rcases List.mem_map.mp hpin with ⟨e, he, rfl⟩
  exact isHalfEdgeB_of_lookup sn q.1 e.1 q.2 (alookup_of_mem_nodup sn hnd q hq)
    (List.mem_map.mpr ⟨e, he, rfl⟩)

theorem sn_keys_nodup (g : Graph) (h : (g.adj.map Prod.fst).Nodup) :
    ((computeAngles g).map Prod.fst).Nodup := by
  have heq : (computeAngles g).map Prod.fst = g.adj.map Prod.fst := by
    rw [computeAngles, List.map_map]
    exact List.map_congr_left (fun p _ => rfl)
  rw [heq]
  exact h

theorem mem_startPairs_of_isHalfEdgeB (sn : SNbrs) (e : ℕ × ℕ)
    (h : isHalfEdgeB sn e = true) : e ∈ startPairs sn := by
  rw [isHalfEdgeB] at h
  cases hl : alookup sn e.1 with
  | none => rw [hl] at h; cases h
  | some l =>
    rw [hl] at h
    simp only at h
    rcases List.any_eq_true.mp h with ⟨x, hx, hxb⟩
    rcases alookup_eq_some_mem sn e.1 l hl with ⟨q, hq, hqk, hql⟩
    rw [startPairs]
    refine List.mem_flatMap.mpr ⟨q, hq, List.mem_map.mpr ⟨x, hql ▸ hx, ?_⟩⟩
    rcases e with ⟨e1, e2⟩
    simp only at hqk ⊢
    rw [hqk, of_decide_eq_true hxb]

theorem startPairs_length (sn : SNbrs) : (startPairs sn).length = adjTotal sn := by
  rw [startPairs, adjTotal]
  induction sn with
  | nil => rfl
  | cons p rest ih =>
    rw [List.flatMap_cons, List.length_append, List.map_cons, List.sum_cons, List.length_map, ih]

theorem adjTotal_computeAngles (g : Graph) : adjTotal (computeAngles g) = adjTotal g.adj := by
  rw [computeAngles, adjTotal, adjTotal, List.map_map]
  apply congrArg List.sum
  apply List.map_congr_left
  intro p _
  show (sortByAngle _).length = _
  rw [(sortByAngle_perm _).length_eq, List.length_map]

theorem insertKey_adjTotal (g : Graph) (k : Coord) :
    adjTotal (insertKey g k).adj = adjTotal g.adj := by
  rw [insertKey]
  split_ifs with h
  · show adjTotal (g.adj ++ [(g.count, [])]) = adjTotal g.adj
    rw [adjTotal, adjTotal, List.map_append, List.sum_append]
    rfl
  · rfl

theorem buildStep_adjTotal (t : ℚ) (b : Beam) (g : Graph) (hg : BuildInv g) :
    adjTotal (buildStep t g b).adj = adjTotal g.adj + 2 := by
  have hinv2 : BuildInv (insertKey (insertKey g (quantKey t b.coords_i)) (quantKey t b.coords_j)) :=
    insertKey_inv _ (insertKey_inv _ hg _) _
  have hiP : (alookup (insertKey (insertKey g (quantKey t b.coords_i))
      (quantKey t b.coords_j)).vertexMap (quantKey t b.coords_i)).isSome = true := by
    rcases Option.isSome_iff_exists.mp (insertKey_present g (quantKey t b.coords_i)) with ⟨v, hv⟩
    rw [insertKey_vm_mono _ _ _ _ hv]
    rfl
  have hjP := insertKey_present (insertKey g (quantKey t b.coords_i)) (quantKey t b.coords_j)
  rcases Option.isSome_iff_exists.mp hiP with ⟨v1, hv1⟩
  rcases Option.isSome_iff_exists.mp hjP with ⟨v2, hv2⟩
  have hk1 := hinv2.vmAdj _ _ hv1
  have hk2 := hinv2.vmAdj _ _ hv2
  have hk2' : (alookup (adjPush (insertKey (insertKey g (quantKey t b.coords_i))
      (quantKey t b.coords_j)).adj v1 (v2, b.name)) v2).isSome = true := by
    rw [isSome_alookup_adjPush]
    exact hk2
  rw [buildStep]
  simp only [hv1, hv2, Option.getD_some]
  show adjTotal (adjPush (adjPush _ v1 (v2, b.name)) v2 (v1, b.name)) = _
  rw [adjTotal_adjPush v2 (v1, b.name) _ hk2', adjTotal_adjPush v1 (v2, b.name) _ hk1,
    insertKey_adjTotal, insertKey_adjTotal]

theorem foldl_buildStep_adjTotal (t : ℚ) :
    ∀ (l : List Beam) (g : Graph), BuildInv g →
      adjTotal ((l.foldl (buildStep t) g)).adj = adjTotal g.adj + 2 * l.length := by
  intro l
  induction l with
  | nil => intro g _; rfl
  | cons b rest ih =>
    intro g hg
    rw [List.foldl_cons, ih _ (buildStep_inv t b g hg), buildStep_adjTotal t b g hg,
      List.length_cons]
    ring

theorem buildGraph_adjTotal (beams : List Beam) (t : ℚ) :
    adjTotal (buildGraph beams t).adj = 2 * beams.length := by
  have h := foldl_buildStep_adjTotal t beams ⟨[], [], 0⟩ buildInv_init
  rw [buildGraph, h]
  show (adjTotal ([] : List (ℕ × List (ℕ × String)))) + 2 * beams.length = 2 * beams.length
  rw [adjTotal]
  simp

/-- C3 (amended): within one detection invocation the visited half-edge set
(the union across all traces) contains no duplicates, contains only
half-edges of the sorted-neighbor structure, and therefore has at most
2 x (number of beams) elements; the original claim's stronger reading — that
no half-edge is ever re-traversed by a later trace — fails (see the square
counterexample), because a completed face's closing half-edge is never
marked. -/
theorem visited_half_edge_set_within_twice_edge_count (beams : List Beam) (t : ℚ) :
    (findAllFaces (computeAngles (buildGraph beams t))).visited.Nodup ∧
    ((findAllFaces (computeAngles (buildGraph beams t))).visited.all
      (fun e => isHalfEdgeB (computeAngles (buildGraph beams t)) e)) = true ∧
    (findAllFaces (computeAngles (buildGraph beams t))).visited.length ≤ 2 * beams.length := by
  have hinv := buildGraph_inv beams t
  have hkeys := sn_keys_nodup _ hinv.adjKeysNodup
  have hstart := startPairs_all_halfEdges _ hkeys
  have hmain := runTraces_visited_inv (computeAngles (buildGraph beams t))
    (startPairs (computeAngles (buildGraph beams t))) ⟨[], [], [], false⟩ hstart
    List.nodup_nil (by intro e he; cases he)
  have hvis : (findAllFaces (computeAngles (buildGraph beams t))).visited =
      (runTraces (computeAngles (buildGraph beams t))
        (startPairs (computeAngles (buildGraph beams t))) ⟨[], [], [], false⟩).visited := rfl
  refine ⟨hvis ▸ hmain.1, ?_, ?_⟩
  · rw [hvis]
    exact List.all_eq_true.mpr (fun x hx => hmain.2 x hx)
  · have hsub : ∀ e ∈ (findAllFaces (computeAngles (buildGraph beams t))).visited,
        e ∈ startPairs (computeAngles (buildGraph beams t)) := by
      intro e he
      exact mem_startPairs_of_isHalfEdgeB _ e (hmain.2 e (hvis ▸ he))
    have hlen := (List.subperm_of_subset (hvis ▸ hmain.1) hsub).length_le
    have hsp : (startPairs (computeAngles (buildGraph beams t))).length = 2 * beams.length := by
      rw [startPairs_length, adjTotal_computeAngles, buildGraph_adjTotal]
    rw [hsp] at hlen
    exact hlen


/-! ### Per-area structure of the local-axis assignments -/

theorem createAreasGo_spec (vc : ℕ → Coord) (nameOf : ℕ → Option String) :
    ∀ (faces : List (List ℕ)) (i pos : ℕ),
      (createAreasGo vc nameOf faces i pos).2 =
        (createAreasGo vc nameOf faces i pos).1.map (fun r => (r.pos, bbAngle r.xs r.ys)) ∧
      (∀ r ∈ (createAreasGo vc nameOf faces i pos).1, pos ≤ r.pos) ∧
      ((createAreasGo vc nameOf faces i pos).1.map AreaRec.pos).Nodup := by
  intro faces
  induction faces with
  | nil =>
    intro i pos
    exact ⟨rfl, fun r hr => absurd hr (List.not_mem_nil r), List.nodup_nil⟩
  | cons f rest ih =>
    intro i pos
    simp only [createAreasGo]
    by_cases hlen : (f.map (fun v => (vc v).1)).length < 3
    · rw [if_pos hlen]
      exact ih (i + 1) pos
    · rw [if_neg hlen]
      rcases ih (i + 1) (pos + 1) with ⟨hev, hge, hnd⟩
      refine ⟨?_, ?_, ?_⟩
      · simp only [List.map_cons, hev]
      · intro r hr
        rcases List.mem_cons.mp hr with rfl | hr0
        · exact Nat.le_refl _
        · exact Nat.le_of_succ_le (hge r hr0)
      · simp only [List.map_cons]
        refine List.nodup_cons.mpr ⟨?_, hnd⟩
        intro hmem
        rcases List.mem_map.mp hmem with ⟨r, hr, hrpos⟩
        have := hge r hr
        omega

theorem secondPass_eq_flatMap (at2 : ℚ → ℚ → ℚ) (getPts : ℕ → Bool) :
    ∀ (recs : List AreaRec),
      secondPass at2 getPts recs = recs.flatMap (fun r =>
        if getPts r.pos then [(r.pos, pyMod (shortestAngle at2 (r.xs.zip r.ys)) 360)] else []) := by
  intro recs
  induction recs with
  | nil => rfl
  | cons r rest ih => rw [secondPass, List.flatMap_cons, ih]

theorem map_eq_flatMap_singleton {α β : Type} (f : α → β) :
    ∀ (l : List α), l.map f = l.flatMap (fun x => [f x]) := by
  intro l
  induction l with
  | nil => rfl
  | cons x xs ih => rw [List.map_cons, List.flatMap_cons, ih]; rfl

theorem filter_flatMap_keyed (evf : AreaRec → List (ℕ × ℚ))
    (hkey : ∀ r, ∀ e ∈ evf r, e.1 = r.pos) :
    ∀ (recs : List AreaRec), (recs.map AreaRec.pos).Nodup → ∀ r0 ∈ recs,
      (recs.flatMap evf).filter (fun e => decide (e.1 = r0.pos)) = evf r0 := by
  intro recs
  induction recs with
  | nil => intro _ r0 hr0; cases hr0
  | cons r rest ih =>
    intro hnd r0 hr0
    rw [List.map_cons, List.nodup_cons] at hnd
    rw [List.flatMap_cons, List.filter_append]
    rcases List.mem_cons.mp hr0 with rfl | hr0'
    · have h1 : (evf r0).filter (fun e => decide (e.1 = r0.pos)) = evf r0 := by
        apply List.filter_eq_self.mpr
        intro e he
        exact decide_eq_true (hkey r0 e he)
      have h2 : (rest.flatMap evf).filter (fun e => decide (e.1 = r0.pos)) = [] := by
        apply List.filter_eq_nil_iff.mpr
        intro e he
        rcases List.mem_flatMap.mp he with ⟨r', hr', he'⟩
        have hkey' := hkey r' e he'
        intro hdec
        have : e.1 = r0.pos := of_decide_eq_true hdec
        exact hnd.1 (this ▸ hkey' ▸ List.mem_map.mpr ⟨r', hr', rfl⟩)
      rw [h1, h2, List.append_nil]
    · have h1 : (evf r).filter (fun e => decide (e.1 = r0.pos)) = [] := by
        apply List.filter_eq_nil_iff.mpr
        intro e he
        have hkey' := hkey r e he
        intro hdec
        have h3 : e.1 = r0.pos := of_decide_eq_true hdec
        exact hnd.1 (hkey' ▸ h3 ▸ List.mem_map.mpr ⟨r0, hr0', rfl⟩)
      rw [h1, List.nil_append]
      exact ih hnd.2 r0 hr0'

/-- C9 (amended): every created area first receives the bounding-box angle
(0 or 90), and then, exactly when its points can be retrieved from the host,
the normalized shortest-edge angle, which overwrites the first; the final
angle is the shortest-edge angle in the retrievable case and the
bounding-box angle otherwise (the two values may coincide), and the
normalized angle always lies in [0, 360). -/
theorem local_axis_assignments_per_created_area (at2 : ℚ → ℚ → ℚ) (vc : ℕ → Coord)
    (nameOf : ℕ → Option String) (getPts : ℕ → Bool) (faces : List (List ℕ)) (r : AreaRec)
    (hr : r ∈ (createAreas vc nameOf faces).1) :
    eventsFor (axisEvents at2 vc nameOf getPts faces) r.pos =
      [bbAngle r.xs r.ys] ++
        (if getPts r.pos then [pyMod (shortestAngle at2 (r.xs.zip r.ys)) 360] else []) ∧
    (bbAngle r.xs r.ys = 0 ∨ bbAngle r.xs r.ys = 90) ∧
    finalAngle (axisEvents at2 vc nameOf getPts faces) r.pos =
      some (if getPts r.pos then pyMod (shortestAngle at2 (r.xs.zip r.ys)) 360
            else bbAngle r.xs r.ys) ∧
    0 ≤ pyMod (shortestAngle at2 (r.xs.zip r.ys)) 360 ∧
    pyMod (shortestAngle at2 (r.xs.zip r.ys)) 360 < 360 := by
  rcases createAreasGo_spec vc nameOf faces 0 0 with ⟨hev, _, hnd⟩
  have hax : axisEvents at2 vc nameOf getPts faces =
      (createAreas vc nameOf faces).1.flatMap (fun q => [(q.pos, bbAngle q.xs q.ys)]) ++
      (createAreas vc nameOf faces).1.flatMap (fun q =>
        if getPts q.pos then [(q.pos, pyMod (shortestAngle at2 (q.xs.zip q.ys)) 360)] else []) := by
    have hc : createAreas vc nameOf faces = createAreasGo vc nameOf faces 0 0 := rfl
    rw [axisEvents]
    show (createAreas vc nameOf faces).2 ++ secondPass at2 getPts (createAreas vc nameOf faces).1 = _
    rw [hc, hev, secondPass_eq_flatMap, map_eq_flatMap_singleton]
  have hf1 := filter_flatMap_keyed (fun q => [(q.pos, bbAngle q.xs q.ys)])
    (by intro q e he; rcases List.mem_singleton.mp he with rfl; rfl)
    (createAreas vc nameOf faces).1 hnd r hr
  have hf2 := filter_flatMap_keyed (fun q =>
      if getPts q.pos then [(q.pos, pyMod (shortestAngle at2 (q.xs.zip q.ys)) 360)] else [])
    (by
      intro q e he
      simp only at he
      split_ifs at he with hq
      · rcases List.mem_singleton.mp he with rfl; rfl
      · cases he)
    (createAreas vc nameOf faces).1 hnd r hr
  have hevents : eventsFor (axisEvents at2 vc nameOf getPts faces) r.pos =
      [bbAngle r.xs r.ys] ++
        (if getPts r.pos then [pyMod (shortestAngle at2 (r.xs.zip r.ys)) 360] else []) := by
    rw [eventsFor, hax, List.filter_append, hf1, hf2, List.map_append]
    simp only
    by_cases hg : getPts r.pos
    · simp [hg]
    · simp [hg]
  refine ⟨hevents, ?_, ?_, (pyMod_range _).1, (pyMod_range _).2⟩
  · rw [bbAngle]
    split_ifs
    · exact Or.inr rfl
    · exact Or.inl rfl
  · rw [finalAngle, hevents]
    by_cases hg : getPts r.pos
    · rw [if_pos hg, if_pos hg]
      exact rfl
    · rw [if_neg hg, if_neg hg]
      exact rfl

/-- Witness for C9 (amended): the square panel with points retrievable. -/
theorem local_axis_assignments_per_created_area_witness :
    ((⟨0, "Area_1", [0, 10, 10, 0], [0, 0, 10, 10]⟩ : AreaRec) ∈
      (createAreas (vertexCoords (buildGraph squareBeams tol).vertexMap) (fun _ => none)
        (findAllFaces squareSN).uniqueFaces).1) ∧
    (eventsFor (axisEvents at2ex (vertexCoords (buildGraph squareBeams tol).vertexMap)
        (fun _ => none) (fun _ => true) (findAllFaces squareSN).uniqueFaces)
        (⟨0, "Area_1", [0, 10, 10, 0], [0, 0, 10, 10]⟩ : AreaRec).pos =
      [bbAngle [0, 10, 10, 0] [0, 0, 10, 10]] ++
        (if (fun _ => true : ℕ → Bool) (⟨0, "Area_1", [0, 10, 10, 0], [0, 0, 10, 10]⟩ : AreaRec).pos
         then [pyMod (shortestAngle at2ex (List.zip [0, 10, 10, 0] [0, 0, 10, 10])) 360] else []) ∧
     (bbAngle [0, 10, 10, 0] [0, 0, 10, 10] = 0 ∨ bbAngle [0, 10, 10, 0] [0, 0, 10, 10] = 90) ∧
     finalAngle (axisEvents at2ex (vertexCoords (buildGraph squareBeams tol).vertexMap)
        (fun _ => none) (fun _ => true) (findAllFaces squareSN).uniqueFaces)
        (⟨0, "Area_1", [0, 10, 10, 0], [0, 0, 10, 10]⟩ : AreaRec).pos =
      some (if (fun _ => true : ℕ → Bool) (⟨0, "Area_1", [0, 10, 10, 0], [0, 0, 10, 10]⟩ : AreaRec).pos
            then pyMod (shortestAngle at2ex (List.zip [0, 10, 10, 0] [0, 0, 10, 10])) 360
            else bbAngle [0, 10, 10, 0] [0, 0, 10, 10]) ∧
     0 ≤ pyMod (shortestAngle at2ex (List.zip [0, 10, 10, 0] [0, 0, 10, 10])) 360 ∧
     pyMod (shortestAngle at2ex (List.zip [0, 10, 10, 0] [0, 0, 10, 10])) 360 < 360) :=
  ⟨by decide,
   local_axis_assignments_per_created_area at2ex
     (vertexCoords (buildGraph squareBeams tol).vertexMap) (fun _ => none) (fun _ => true)
     (findAllFaces squareSN).uniqueFaces ⟨0, "Area_1", [0, 10, 10, 0], [0, 0, 10, 10]⟩
     (by decide)⟩

end SapAreas
